import Mathlib

/-!
Shallow embedding of the `rust_bank` repository (crate `bank_core`, files
`src/bank_core/src/bank.rs` and `src/bank_core/src/bank/implements/memory/storage.rs`,
with the shared types of the `storage` module: `AccountTransfer`, `TransactionAction`,
`TransactionTransfer`, `Error`).

Modelling conventions:
* Rust `usize` balances are embedded as `Int` so that an arithmetic underflow of a
  balance would be observable as a negative value; all other `usize` counters and
  amounts are `Nat`.  Where the source performs a wrapping `usize` subtraction that
  can actually underflow (`transaction_by_id`'s `id - 1`) the wraparound modulo
  `2 ^ 64` is modelled explicitly (`byIdIndex`).
* `HashMap<String, _>` is embedded as an association list with unique keys kept in
  insertion order.  All operations are per-key, and every result proved here is
  independent of iteration order, so the fixed order is harmless.
* A Rust method on `&mut self` that can fail becomes a function returning
  `Except Error α × State`: the returned state keeps every mutation made before the
  failure point, exactly as the `?` operator does in the source.
* The Rust structs `MemTransactionStorageItem`, `TransactionTransfer` and
  `bank::Transaction` all carry the same three fields `(id, action, account_name)`
  and are converted into one another by plain field copies, so a single Lean
  structure `Transaction` represents all three.
-/

namespace RustBank

/-- `usize::MAX + 1`: the modulus of Rust's 64-bit `usize`. -/
def usizeSize : Nat := 2 ^ 64

/-- `storage::TransactionAction`. -/
inductive TransactionAction where
  | Registration : TransactionAction
  | Add (value : Nat) : TransactionAction
  | Withdraw (value : Nat) : TransactionAction
  | Transfer (target : String) (value : Nat) (fee : Nat) : TransactionAction
deriving DecidableEq

/-- One transaction record: models `MemTransactionStorageItem`, `TransactionTransfer`
and `bank::Transaction` (identical field lists, converted by field copy). -/
structure Transaction where
  id : Nat
  action : TransactionAction
  account_name : String
deriving DecidableEq

/-- `storage::AccountTransfer` (also `bank::Account`, which has the same fields).
The `usize` balance is embedded as `Int` (see header). -/
structure AccountTransfer where
  name : String
  balance : Int
  trs : List Nat
deriving DecidableEq

/-- `storage::Error`. -/
inductive StorageError where
  | StorageErr (msg : String) : StorageError
  | AccountAlreadyExists : StorageError
  | AccountNotExists : StorageError
  | TransactionNotExists : StorageError
deriving DecidableEq

/-- `bank::Error`. -/
inductive BankError where
  | Storage (msg : String) : BankError
  | AccountAlreadyExists : BankError
  | AccountNotExists : BankError
  | EmptyTransaction : BankError
  | NotEnoughMoney : BankError
  | TransactionNotExists : BankError
deriving DecidableEq

deriving instance DecidableEq for Except

/-- `impl From<StorageError> for Error` in `bank.rs`. -/
def BankError.fromStorage : StorageError → BankError
  | .StorageErr v => .Storage v
  | .AccountAlreadyExists => .AccountAlreadyExists
  | .AccountNotExists => .AccountNotExists
  | .TransactionNotExists => .TransactionNotExists

/-- Association-list lookup, modelling `HashMap::get` / `entry` probing. -/
def alookup {β : Type} : List (String × β) → String → Option β
  | [], _ => none
  | p :: rest, key => if p.1 = key then some p.2 else alookup rest key

/-- Replace the value stored under `key`, modelling `Entry::Occupied::insert`. -/
def listUpdate (l : List (String × AccountTransfer)) (key : String)
    (v : AccountTransfer) : List (String × AccountTransfer) :=
  l.map fun p => if p.1 = key then (key, v) else p

/-- `MemAccountStorage`: a `HashMap<String, AccountTransfer>` plus the reserved
fee-account name. -/
structure MemAccountStorage where
  storage : List (String × AccountTransfer)
  fee_acc_name : String
deriving DecidableEq

/-- The fee-account name fixed by `MemAccountStorage::new`. -/
def feeAccName : String := "fee_acc"

/-- `MemAccountStorage::new()`: starts with the fee account already created
(`create_account` on the empty map always succeeds, so `new` never fails). -/
def MemAccountStorage.new : MemAccountStorage :=
  { storage := [(feeAccName, { name := feeAccName, balance := 0, trs := [] })],
    fee_acc_name := feeAccName }

/-- The `#[derive(Default)]` instance of `MemAccountStorage`: empty map and the
empty string as fee-account name (`String::default()`).  This—not `new`—is what
`Bank::restore_bank_from_transactions` uses via `A::default()`. -/
def MemAccountStorage.rustDefault : MemAccountStorage :=
  { storage := [], fee_acc_name := "" }

/-- `MemAccountStorage::create_account`. -/
def MemAccountStorage.create_account (s : MemAccountStorage)
    (raw_data : AccountTransfer) :
    Except StorageError (AccountTransfer × MemAccountStorage) :=
  match alookup s.storage raw_data.name with
  | some _ => .error .AccountAlreadyExists
  | none =>
      .ok (raw_data, { s with storage := s.storage ++ [(raw_data.name, raw_data)] })

/-- `MemAccountStorage::get_account`. -/
def MemAccountStorage.get_account (s : MemAccountStorage) (name : String) :
    Except StorageError AccountTransfer :=
  match alookup s.storage name with
  | some acc => .ok acc
  | none => .error .AccountNotExists

/-- `MemAccountStorage::update_account`: fails when the key is absent, otherwise
replaces the stored value and returns it. -/
def MemAccountStorage.update_account (s : MemAccountStorage)
    (raw_data : AccountTransfer) :
    Except StorageError (AccountTransfer × MemAccountStorage) :=
  match alookup s.storage raw_data.name with
  | some _ =>
      .ok (raw_data, { s with storage := listUpdate s.storage raw_data.name raw_data })
  | none => .error .AccountNotExists

/-- `MemAccountStorage::fee_account`. -/
def MemAccountStorage.fee_account (s : MemAccountStorage) :
    Except StorageError AccountTransfer :=
  s.get_account s.fee_acc_name

/-- `MemAccountStorage::accounts`. -/
def MemAccountStorage.accounts (s : MemAccountStorage) : List AccountTransfer :=
  s.storage.map Prod.snd

/-- `MemTransactionStorage`: a `Vec` of items plus the last assigned id. -/
structure MemTransactionStorage where
  storage : List Transaction
  last_tr_id : Nat
deriving DecidableEq

/-- `MemTransactionStorage::new()` (also its `Default`). -/
def MemTransactionStorage.new : MemTransactionStorage :=
  { storage := [], last_tr_id := 0 }

/-- `MemTransactionStorage::create_transaction`: infallible in the memory
implementation, so the `Result` wrapper is dropped. -/
def MemTransactionStorage.create_transaction (s : MemTransactionStorage)
    (account_name : String) (action : TransactionAction) :
    Transaction × MemTransactionStorage :=
  let item : Transaction :=
    { id := s.last_tr_id + 1, action := action, account_name := account_name }
  (item, { storage := s.storage ++ [item], last_tr_id := s.last_tr_id + 1 })

/-- The `Vec` index `id - 1` computed by `transaction_by_id`, as the wrapping
`usize` subtraction of release builds: for `id < 2 ^ 64` this is `id - 1` when
`id ≥ 1` and `usize::MAX` when `id = 0` (debug builds would panic there). -/
def byIdIndex (id : Nat) : Nat := (id + (usizeSize - 1)) % usizeSize

/-- `MemTransactionStorage::transaction_by_id`.  Note the source returns
`Error::AccountNotExists`—not `TransactionNotExists`—on a miss. -/
def MemTransactionStorage.transaction_by_id (s : MemTransactionStorage)
    (id : Nat) : Except StorageError Transaction :=
  match s.storage.get? (byIdIndex id) with
  | some item => .ok item
  | none => .error .AccountNotExists

/-- `Bank<MemAccountStorage, MemTransactionStorage>`. -/
structure Bank where
  acc_storage : MemAccountStorage
  tr_storage : MemTransactionStorage
  tr_fee : Nat
deriving DecidableEq

/-- `Bank::new`. -/
def Bank.new (acc_storage : MemAccountStorage) (tr_storage : MemTransactionStorage)
    (tr_fee : Option Nat) : Bank :=
  { acc_storage := acc_storage, tr_storage := tr_storage, tr_fee := tr_fee.getD 0 }

/-- A bank as the binaries build it: `Bank::new(MemAccountStorage::new().unwrap(),
MemTransactionStorage::new(), fee)`. -/
def freshBank (fee : Option Nat) : Bank :=
  Bank.new MemAccountStorage.new MemTransactionStorage.new fee

/-- `Bank::account`. -/
def Bank.account (b : Bank) (account_name : String) :
    Except BankError AccountTransfer :=
  match b.acc_storage.get_account account_name with
  | .ok a => .ok a
  | .error e => .error (BankError.fromStorage e)

/-- `Bank::account_balance`. -/
def Bank.account_balance (b : Bank) (account_name : String) : Except BankError Int :=
  match b.account account_name with
  | .ok acc => .ok acc.balance
  | .error e => .error e

/-- `Bank::create_account`.  The registration transaction is logged before the
account is created, and survives a failure of `create_account`. -/
def Bank.create_account (b : Bank) (account_name : String) :
    Except BankError AccountTransfer × Bank :=
  let p := b.tr_storage.create_transaction account_name .Registration
  let b1 : Bank := { b with tr_storage := p.2 }
  let acc : AccountTransfer := { name := account_name, balance := 0, trs := [p.1.id] }
  match b1.acc_storage.create_account acc with
  | .error e => (.error (BankError.fromStorage e), b1)
  | .ok q =>
      (.ok { name := account_name, balance := 0, trs := [p.1.id] },
       { b1 with acc_storage := q.2 })

/-- `Bank::inc_acc_balance`. -/
def Bank.inc_acc_balance (b : Bank) (account_name : String) (value : Nat) :
    Except BankError Nat × Bank :=
  if value = 0 then (.error .EmptyTransaction, b)
  else
    let p := b.tr_storage.create_transaction account_name (.Add value)
    let b1 : Bank := { b with tr_storage := p.2 }
    match b1.account account_name with
    | .error e => (.error e, b1)
    | .ok acc =>
        let acc_tr : AccountTransfer :=
          { acc with balance := acc.balance + value, trs := acc.trs ++ [p.1.id] }
        match b1.acc_storage.update_account acc_tr with
        | .error e => (.error (BankError.fromStorage e), b1)
        | .ok q => (.ok p.1.id, { b1 with acc_storage := q.2 })

/-- `Bank::decr_acc_balance`. -/
def Bank.decr_acc_balance (b : Bank) (account_name : String) (value : Nat) :
    Except BankError Nat × Bank :=
  match b.account account_name with
  | .error e => (.error e, b)
  | .ok acc =>
      if (value : Int) > acc.balance then (.error .NotEnoughMoney, b)
      else if value = 0 then (.error .EmptyTransaction, b)
      else
        let p := b.tr_storage.create_transaction account_name (.Withdraw value)
        let b1 : Bank := { b with tr_storage := p.2 }
        let acc' : AccountTransfer :=
          { acc with balance := acc.balance - value, trs := acc.trs ++ [p.1.id] }
        match b1.acc_storage.update_account acc' with
        | .error e => (.error (BankError.fromStorage e), b1)
        | .ok q => (.ok p.1.id, { b1 with acc_storage := q.2 })

/-- `Bank::make_transaction`.  Mirrors the source's order: sender check, transfer
transaction, sender debit, receiver credit, then (for a positive fee) the fee
credit with its own `Add` transaction.  Every early `?`-style exit keeps the
mutations already made. -/
def Bank.make_transaction (b : Bank) (account_name_from account_name_to : String)
    (value : Nat) : Except BankError Nat × Bank :=
  match b.account account_name_from with
  | .error e => (.error e, b)
  | .ok acc_from =>
      if value = 0 then (.error .EmptyTransaction, b)
      else if (value : Int) + (b.tr_fee : Int) > acc_from.balance then
        (.error .NotEnoughMoney, b)
      else
        let p := b.tr_storage.create_transaction account_name_from
          (.Transfer account_name_to value b.tr_fee)
        let b1 : Bank := { b with tr_storage := p.2 }
        let acc_from' : AccountTransfer :=
          { acc_from with
            balance := acc_from.balance - ((value : Int) + (b.tr_fee : Int)),
            trs := acc_from.trs ++ [p.1.id] }
        match b1.acc_storage.update_account acc_from' with
        | .error e => (.error (BankError.fromStorage e), b1)
        | .ok q1 =>
            let b2 : Bank := { b1 with acc_storage := q1.2 }
            match b2.account account_name_to with
            | .error e => (.error e, b2)
            | .ok acc_to =>
                let acc_to' : AccountTransfer :=
                  { acc_to with
                    balance := acc_to.balance + value,
                    trs := acc_to.trs ++ [p.1.id] }
                match b2.acc_storage.update_account acc_to' with
                | .error e => (.error (BankError.fromStorage e), b2)
                | .ok q2 =>
                    let b3 : Bank := { b2 with acc_storage := q2.2 }
                    if b3.tr_fee > 0 then
                      match b3.acc_storage.fee_account with
                      | .error e => (.error (BankError.fromStorage e), b3)
                      | .ok fee_acc =>
                          match b3.acc_storage.fee_account with
                          | .error e => (.error (BankError.fromStorage e), b3)
                          | .ok fee_acc_again =>
                              let pf := b3.tr_storage.create_transaction
                                fee_acc_again.name (.Add b3.tr_fee)
                              let b4 : Bank := { b3 with tr_storage := pf.2 }
                              let fee_acc' : AccountTransfer :=
                                { fee_acc with
                                  balance := fee_acc.balance + (b3.tr_fee : Int),
                                  trs := fee_acc.trs ++ [pf.1.id] }
                              match b4.acc_storage.update_account fee_acc' with
                              | .error e => (.error (BankError.fromStorage e), b4)
                              | .ok q3 => (.ok p.1.id, { b4 with acc_storage := q3.2 })
                    else (.ok p.1.id, b3)

/-- `Bank::transactions` (always `Ok` in the memory implementation). -/
def Bank.transactions (b : Bank) : List Transaction :=
  b.tr_storage.storage

/-- `Bank::transaction_by_id`. -/
def Bank.transaction_by_id (b : Bank) (id : Nat) : Except BankError Transaction :=
  match b.tr_storage.transaction_by_id id with
  | .ok tr => .ok tr
  | .error e => .error (BankError.fromStorage e)

/-- `Bank::account_transactions`: looks every recorded id up and silently skips
failed lookups (`filter(is_ok)` + `unwrap`, i.e. `filterMap` of the succeeding
ones). -/
def Bank.account_transactions (b : Bank) (account_name : String) :
    Except BankError (List Transaction) :=
  match b.account account_name with
  | .error e => .error e
  | .ok acc =>
      .ok (acc.trs.filterMap fun id => (b.tr_storage.transaction_by_id id).toOption)

/-- The balance fold of `Bank::restore_account_from_transactions`: registration is
a no-op, `Add`/`Withdraw` adjust, a `Transfer` debits `value + fee` unless the
account is the receiver, in which case it credits `value`. -/
def restoreFold (name : String) (balance : Int) : List Transaction → Int
  | [] => balance
  | tr :: rest =>
      match tr.action with
      | .Registration => restoreFold name balance rest
      | .Add v => restoreFold name (balance + v) rest
      | .Withdraw v => restoreFold name (balance - v) rest
      | .Transfer target v fee =>
          if target ≠ name then restoreFold name (balance - ((v : Int) + fee)) rest
          else restoreFold name (balance + v) rest

/-- `Bank::restore_account_from_transactions`: rebuilds the account from its
transaction list, then updates it, or creates it when the update reports
`AccountNotExists`. -/
def Bank.restore_account_from_transactions (b : Bank) (account_name : String)
    (trs : List Transaction) : Except BankError AccountTransfer × Bank :=
  let acc : AccountTransfer :=
    { name := account_name, balance := restoreFold account_name 0 trs,
      trs := trs.map (·.id) }
  match b.acc_storage.update_account acc with
  | .ok q => (.ok q.1, { b with acc_storage := q.2 })
  | .error .AccountNotExists =>
      match b.acc_storage.create_account acc with
      | .ok q => (.ok q.1, { b with acc_storage := q.2 })
      | .error e => (.error (BankError.fromStorage e), b)
  | .error e => (.error (BankError.fromStorage e), b)

/-- `HashMap::entry(key)` push of the restore loop: append to the entry's vector,
or insert a fresh singleton vector. -/
def mapPush : List (String × List Transaction) → String → Transaction →
    List (String × List Transaction)
  | [], key, tr => [(key, [tr])]
  | p :: rest, key, tr =>
      if p.1 = key then (p.1, p.2 ++ [tr]) :: rest
      else p :: mapPush rest key tr

/-- The `for tr in trs` loop of `restore_bank_from_transactions`: re-creates each
transaction in the fresh transaction storage and groups transactions per account
name (a `Transfer` is pushed to its receiver's entry, then to its sender's). -/
def restoreLoop (ts : MemTransactionStorage) (m : List (String × List Transaction)) :
    List Transaction → MemTransactionStorage × List (String × List Transaction)
  | [] => (ts, m)
  | tr :: rest =>
      let m1 : List (String × List Transaction) := match tr.action with
        | .Transfer target _ _ => mapPush m target tr
        | _ => m
      restoreLoop (ts.create_transaction tr.account_name tr.action).2
        (mapPush m1 tr.account_name tr) rest

/-- The second loop of `restore_bank_from_transactions`, restoring each grouped
account (errors propagate via `?`). -/
def Bank.restoreAccountsLoop (b : Bank) :
    List (String × List Transaction) → Except BankError Bank
  | [] => .ok b
  | (name, trs) :: rest =>
      match b.restore_account_from_transactions name trs with
      | (.error e, _) => .error e
      | (.ok _, b1) => b1.restoreAccountsLoop rest

/-- `Bank::restore_bank_from_transactions`.  Note it starts from `A::default()`
and `T::default()` (so from `MemAccountStorage.rustDefault`, not
`MemAccountStorage.new`). -/
def Bank.restore_bank_from_transactions (trs : List Transaction)
    (tr_fee : Option Nat) : Except BankError Bank :=
  let bank : Bank := Bank.new MemAccountStorage.rustDefault MemTransactionStorage.new tr_fee
  let p := restoreLoop bank.tr_storage [] trs
  Bank.restoreAccountsLoop { bank with tr_storage := p.1 } p.2

/-- The four mutating operations a client can issue against the ledger. -/
inductive Op where
  | create (name : String) : Op
  | inc (name : String) (value : Nat) : Op
  | decr (name : String) (value : Nat) : Op
  | transfer (source target : String) (value : Nat) : Op
deriving DecidableEq

/-- The bank state after issuing `op`, whether or not the operation succeeded
(a failed operation keeps the mutations made before its failure point). -/
def stepBank (b : Bank) : Op → Bank
  | .create name => (b.create_account name).2
  | .inc name value => (b.inc_acc_balance name value).2
  | .decr name value => (b.decr_acc_balance name value).2
  | .transfer source target value => (b.make_transaction source target value).2

/-- Run a sequence of operations, keeping every intermediate state. -/
def runOps (b : Bank) : List Op → Bank
  | [] => b
  | op :: rest => runOps (stepBank b op) rest

/-- A ledger state reachable from a fresh bank by any operation sequence,
successful or failed. -/
def Reachable (b : Bank) : Prop :=
  ∃ (fee : Option Nat) (ops : List Op), b = runOps (freshBank fee) ops

/-- A ledger state reachable from a fresh bank by operations that all succeeded,
with every transfer between two distinct accounts. -/
inductive CleanReach : Bank → Prop where
  | fresh (fee : Option Nat) : CleanReach (freshBank fee)
  | create {b : Bank} (name : String) : CleanReach b →
      (b.create_account name).1.isOk = true → CleanReach (b.create_account name).2
  | inc {b : Bank} (name : String) (value : Nat) : CleanReach b →
      (b.inc_acc_balance name value).1.isOk = true →
      CleanReach (b.inc_acc_balance name value).2
  | decr {b : Bank} (name : String) (value : Nat) : CleanReach b →
      (b.decr_acc_balance name value).1.isOk = true →
      CleanReach (b.decr_acc_balance name value).2
  | transfer {b : Bank} (source target : String) (value : Nat) : CleanReach b →
      source ≠ target →
      (b.make_transaction source target value).1.isOk = true →
      CleanReach (b.make_transaction source target value).2

/-- Does `tr` touch the account called `name` (as owner, or as transfer
receiver)?  These are exactly the transactions the restore loop groups under
`name`, and the ones whose ids the live code pushes onto `name`'s list. -/
def touches (name : String) (tr : Transaction) : Bool :=
  if tr.account_name = name then true
  else
    match tr.action with
    | .Transfer target _ _ => if target = name then true else false
    | _ => false

/-- The balance delta `tr` causes for the account called `name` (matching both
the live updates and one step of `restoreFold`, for transfers whose receiver
differs from their sender). -/
def effect (name : String) (tr : Transaction) : Int :=
  match tr.action with
  | .Registration => 0
  | .Add v => (v : Int)
  | .Withdraw v => -(v : Int)
  | .Transfer target v fee =>
      if target = name then (v : Int) else -((v : Int) + (fee : Int))

/-- The transactions of `log` touching `name`, in log order. -/
def relevantTrs (name : String) (log : List Transaction) : List Transaction :=
  log.filter (touches name)

/-- Total balance held across all accounts of the ledger. -/
def totalBalance (b : Bank) : Int :=
  (b.acc_storage.storage.map fun p => p.2.balance).sum

/-- Partial sums of a delta list starting from `bal` never go below zero. -/
def TrajNonneg : Int → List Int → Prop
  | _, [] => True
  | bal, e :: rest => 0 ≤ bal + e ∧ TrajNonneg (bal + e) rest

/-- The per-account delta list a log induces for `name`. -/
def effectsOf (name : String) (log : List Transaction) : List Int :=
  (relevantTrs name log).map (effect name)

/-- The transaction store's id discipline: the stored ids are `1, 2, …, n` in
order and the id counter equals the store's size. -/
def LogIds (ts : MemTransactionStorage) : Prop :=
  ts.storage.map (·.id) = List.range' 1 ts.storage.length ∧
    ts.last_tr_id = ts.storage.length

/-- How one restore-map entry grows across a transaction list: an existing
entry is extended, an absent entry is created on the first touching
transaction. -/
def entryAfter (o : Option (List Transaction)) (l : List Transaction) :
    Option (List Transaction) :=
  match o with
  | some l0 => some (l0 ++ l)
  | none => if l = [] then none else some l

/-- The spec's fee = 1 scenario: CreateAccount A, CreateAccount B,
IncrementBalance(A, 100), Transfer(A, B, 10). -/
def c7s1 : Except BankError AccountTransfer × Bank :=
  (freshBank (some 1)).create_account "A"

def c7s2 : Except BankError AccountTransfer × Bank := c7s1.2.create_account "B"

def c7s3 : Except BankError Nat × Bank := c7s2.2.inc_acc_balance "A" 100

def c7s4 : Except BankError Nat × Bank := c7s3.2.make_transaction "A" "B" 10

/-- The ledger at the end of the fee = 1 scenario. -/
def scenarioBank : Bank := c7s4.2

/-- Fee = 1 ledger with a single account A of balance 100. -/
def selfBankBase : Bank := runOps (freshBank (some 1)) [.create "A", .inc "A" 100]

/-- `selfBankBase` after the self-transfer Transfer(A, A, 10). -/
def selfBank : Bank := (selfBankBase.make_transaction "A" "A" 10).2

/-- Fee = 0 ledger after CreateAccount A twice (the second one fails but still
logs a registration transaction). -/
def dupBank : Bank := runOps (freshBank (some 0)) [.create "A", .create "A"]

/-- The replay of the fee = 1 scenario ledger. -/
def c6restored : Except BankError Bank :=
  Bank.restore_bank_from_transactions scenarioBank.transactions (some 1)

/-! ## Computational results on concrete ledgers -/

/-- C7: on a fresh ledger with fee = 1, the scenario CreateAccount("A"),
CreateAccount("B"), IncrementBalance("A", 100), Transfer("A", "B", 10) assigns
transaction ids 1, 2, 3, 4, adds a fifth transaction `Add(1)` with id 5 for the
fee account, leaves balance(A) = 89, balance(B) = 10 and fee-account
balance = 1, and AccountTransactions("A") returns the transactions with ids
[1, 3, 4] in that order. -/
theorem c7_scenario_exact :
    c7s1.1 = .ok { name := "A", balance := 0, trs := [1] } ∧
    c7s2.1 = .ok { name := "B", balance := 0, trs := [2] } ∧
    c7s3.1 = .ok 3 ∧
    c7s4.1 = .ok 4 ∧
    scenarioBank.transactions.length = 5 ∧
    scenarioBank.transactions.get? 3 =
      some { id := 4, action := .Transfer "B" 10 1, account_name := "A" } ∧
    scenarioBank.transactions.get? 4 =
      some { id := 5, action := .Add 1, account_name := feeAccName } ∧
    scenarioBank.account_balance "A" = .ok 89 ∧
    scenarioBank.account_balance "B" = .ok 10 ∧
    scenarioBank.account_balance feeAccName = .ok 1 ∧
    scenarioBank.account_transactions "A" =
      .ok [{ id := 1, action := .Registration, account_name := "A" },
           { id := 3, action := .Add 100, account_name := "A" },
           { id := 4, action := .Transfer "B" 10 1, account_name := "A" }] := by
  decide

/-- C9 (code bug): a lookup of an absent transaction id returns
`Error::AccountNotExists`, not the `TransactionNotExists` kind the spec names,
while a stored transaction is returned exactly. -/
theorem c9_lookup_wrong_error_kind :
    scenarioBank.transaction_by_id 9 = .error .AccountNotExists ∧
    BankError.AccountNotExists ≠ BankError.TransactionNotExists ∧
    scenarioBank.transaction_by_id 4 =
      .ok { id := 4, action := .Transfer "B" 10 1, account_name := "A" } := by
  decide

/-- C10 (counterexample): for id = 0 the backing index `id - 1` does underflow:
the wrapping `usize` computation yields `usize::MAX`, not the mathematical
`0 - 1` (and with overflow checks enabled the source would panic there). -/
theorem c10_counterexample :
    byIdIndex 0 = usizeSize - 1 ∧
    (byIdIndex 0 : Int) ≠ (0 : Int) - 1 ∧
    MemTransactionStorage.new.transaction_by_id 0 = .error .AccountNotExists := by
  refine ⟨by decide, by decide, by decide⟩

/-- C6 (code bug): a ledger rebuilt by `restore_bank_from_transactions` starts
from `A::default()`, so its fee-account name is `""` and `fee_account()` fails
even though the replayed user accounts exist; a fee-charging transfer on the
restored ledger then fails at the fee-crediting step after having debited the
sender and credited the receiver. -/
theorem c6_restored_bank_missing_fee_account :
    c6restored.map (fun rb => rb.acc_storage.fee_acc_name) = .ok "" ∧
    c6restored.map (fun rb => rb.acc_storage.fee_account) =
      .ok (.error .AccountNotExists) ∧
    c6restored.map (fun rb => rb.acc_storage.storage.length) = .ok 3 ∧
    c6restored.map (fun rb => (rb.make_transaction "A" "B" 10).1) =
      .ok (.error .AccountNotExists) ∧
    c6restored.map (fun rb => (rb.make_transaction "A" "B" 10).2.account_balance "A") =
      .ok (.ok 78) := by
  decide

/-- C3 (code bug): mutating operations are not atomic. A transfer to a missing
receiver returns an error yet leaves the sender debited, and an increment of a
missing account returns an error yet appends a transaction to the log. -/
theorem c3_partial_mutation_on_error :
    (selfBankBase.make_transaction "A" "Z" 10).1 = .error .AccountNotExists ∧
    selfBankBase.account_balance "A" = .ok 100 ∧
    (selfBankBase.make_transaction "A" "Z" 10).2.account_balance "A" = .ok 89 ∧
    ((freshBank none).inc_acc_balance "ghost" 5).1 = .error .AccountNotExists ∧
    (freshBank none).tr_storage.storage.length = 0 ∧
    ((freshBank none).inc_acc_balance "ghost" 5).2.tr_storage.storage.length = 1 := by
  decide

/-- C1 (counterexample): for the successful self-transfer Transfer("A", "A", 10)
with fee 1, the three-term sum balance(from) + balance(to) + balance(fee_account)
is 200 before and 199 after, so the claim's conservation equation fails when
from = to. -/
theorem c1_counterexample :
    (selfBankBase.make_transaction "A" "A" 10).1 = .ok 3 ∧
    selfBankBase.account_balance "A" = .ok 100 ∧
    selfBankBase.account_balance feeAccName = .ok 0 ∧
    selfBank.account_balance "A" = .ok 99 ∧
    selfBank.account_balance feeAccName = .ok 1 ∧
    (99 : Int) + 99 + 1 ≠ 100 + 100 + 0 := by
  decide

/-- C2 (counterexample): replay is not faithful on three counts. A replayed
self-transfer is credited twice instead of net-debiting the fee (live balance 99,
replayed balance 120); the fee account of a ledger without fee transactions is
absent from the replayed ledger; and a failed duplicate CreateAccount logs a
registration that replay folds into the account's transaction list ([1] live,
[1, 2] replayed). -/
theorem c2_counterexample :
    selfBank.account_balance "A" = .ok 99 ∧
    (Bank.restore_bank_from_transactions selfBank.transactions (some 1)).map
      (fun rb => rb.account_balance "A") = .ok (.ok 120) ∧
    alookup (freshBank (some 1)).acc_storage.storage feeAccName =
      some { name := feeAccName, balance := 0, trs := [] } ∧
    (Bank.restore_bank_from_transactions (freshBank (some 1)).transactions (some 1)).map
      (fun rb => alookup rb.acc_storage.storage feeAccName) = .ok none ∧
    (dupBank.account "A").map (fun a => a.trs) = .ok [1] ∧
    (Bank.restore_bank_from_transactions dupBank.transactions (some 0)).map
      (fun rb => (rb.account "A").map (fun a => a.trs)) = .ok (.ok [1, 2]) := by
  decide

/-- C4 (counterexample): with an existing sender A, a missing receiver Z and
value 0, the transfer fails `EmptyTransaction`, not the `AccountNotFound` the
claim requires for a missing receiver: the checks are ordered. -/
theorem c4_counterexample :
    selfBankBase.account "Z" = .error .AccountNotExists ∧
    (selfBankBase.make_transaction "A" "Z" 0).1 = .error .EmptyTransaction ∧
    BankError.EmptyTransaction ≠ BankError.AccountNotExists := by
  decide

/-! ## Association-list lemmas -/

theorem alookup_listUpdate_other {l : List (String × AccountTransfer)} {key t : String}
    (v : AccountTransfer) (h : t ≠ key) :
    alookup (listUpdate l key v) t = alookup l t := by
  induction l with
  | nil => rfl
  | cons p rest ih =>
      obtain ⟨p1, p2⟩ := p
      by_cases hp : p1 = key
      · subst hp
        simp only [listUpdate, List.map_cons, if_pos rfl, alookup] at ih ⊢
        rw [if_neg (fun hkt => h hkt.symm), if_neg (fun hkt => h hkt.symm)]
        exact ih
      · simp only [listUpdate, List.map_cons, if_neg hp, alookup] at ih ⊢
        by_cases hpt : p1 = t
        · simp only [if_pos hpt]
        · simp only [if_neg hpt]
          exact ih

theorem alookup_listUpdate_self {l : List (String × AccountTransfer)} {key : String}
    (v : AccountTransfer) :
    alookup (listUpdate l key v) key = (alookup l key).map fun _ => v := by
  induction l with
  | nil => rfl
  | cons p rest ih =>
      obtain ⟨p1, p2⟩ := p
      by_cases hp : p1 = key
      · subst hp
        simp [listUpdate, alookup]
      · simp only [listUpdate, List.map_cons, if_neg hp, alookup] at ih ⊢
        exact ih

theorem alookup_mem {l : List (String × AccountTransfer)} {key : String}
    {a : AccountTransfer} (h : alookup l key = some a) : (key, a) ∈ l := by
  induction l with
  | nil => simp [alookup] at h
  | cons p rest ih =>
      obtain ⟨p1, p2⟩ := p
      simp only [alookup] at h
      by_cases hp : p1 = key
      · subst hp
        rw [if_pos rfl] at h
        injection h with h2
        subst h2
        exact List.mem_cons_self _ _
      · rw [if_neg hp] at h
        exact List.mem_cons_of_mem _ (ih h)

theorem alookup_eq_none_iff {β : Type} {l : List (String × β)} {key : String} :
    alookup l key = none ↔ key ∉ l.map Prod.fst := by
  induction l with
  | nil => simp [alookup]
  | cons p rest ih =>
      obtain ⟨p1, p2⟩ := p
      simp only [alookup, List.map_cons, List.mem_cons]
      by_cases hp : p1 = key
      · simp [hp]
      · simp only [if_neg hp, ih]
        constructor
        · intro h hmem
          rcases hmem with h1 | h2
          · exact hp h1.symm
          · exact h h2
        · intro h h2
          exact h (Or.inr h2)

theorem listUpdate_map_fst (l : List (String × AccountTransfer)) (key : String)
    (v : AccountTransfer) : (listUpdate l key v).map Prod.fst = l.map Prod.fst := by
  induction l with
  | nil => rfl
  | cons p rest ih =>
      obtain ⟨p1, p2⟩ := p
      simp only [listUpdate, List.map_cons] at ih ⊢
      by_cases hp : p1 = key
      · subst hp
        rw [if_pos rfl]
        simp only [List.map_cons, ih]
      · rw [if_neg hp]
        simp only [List.map_cons, ih]

theorem listUpdate_of_not_mem {l : List (String × AccountTransfer)} {key : String}
    (v : AccountTransfer) (h : key ∉ l.map Prod.fst) : listUpdate l key v = l := by
  induction l with
  | nil => rfl
  | cons p rest ih =>
      obtain ⟨p1, p2⟩ := p
      simp only [List.map_cons, List.mem_cons] at h
      push_neg at h
      simp only [listUpdate, List.map_cons] at ih ⊢
      rw [if_neg (fun hp => h.1 hp.symm), ih h.2]

theorem alookup_listUpdate_mem {l : List (String × AccountTransfer)} {key t : String}
    {v a : AccountTransfer} (h : alookup (listUpdate l key v) t = some a) :
    a = v ∨ alookup l t = some a := by
  by_cases ht : t = key
  · subst ht
    rw [alookup_listUpdate_self] at h
    cases hl : alookup l t with
    | none => rw [hl] at h; simp at h
    | some b =>
        rw [hl] at h
        rw [Option.map_some'] at h
        injection h with h2
        exact Or.inl h2.symm
  · rw [alookup_listUpdate_other v ht] at h
    exact Or.inr h

theorem sum_listUpdate {l : List (String × AccountTransfer)} {key : String}
    {a : AccountTransfer} (v : AccountTransfer)
    (hnd : (l.map Prod.fst).Nodup) (ha : alookup l key = some a) :
    ((listUpdate l key v).map fun p => p.2.balance).sum =
      (l.map fun p => p.2.balance).sum - a.balance + v.balance := by
  induction l with
  | nil => simp [alookup] at ha
  | cons p rest ih =>
      obtain ⟨p1, p2⟩ := p
      simp only [List.map_cons, List.nodup_cons] at hnd
      simp only [alookup] at ha
      simp only [listUpdate, List.map_cons] at ih ⊢
      by_cases hp : p1 = key
      · subst hp
        rw [if_pos rfl]
        rw [if_pos rfl] at ha
        injection ha with ha2
        subst ha2
        have hrest : List.map (fun p => if p.1 = p1 then (p1, v) else p) rest = rest := by
          have : listUpdate rest p1 v = rest := listUpdate_of_not_mem v hnd.1
          simpa [listUpdate] using this
        rw [hrest]
        simp only [List.map_cons, List.sum_cons]
        ring
      · rw [if_neg hp]
        rw [if_neg hp] at ha
        simp only [List.map_cons, List.sum_cons, ih hnd.2 ha]
        ring

/-! ## C10: totality of transaction_by_id under wrapping semantics -/

/-- C10 (amended): under release (wrapping) semantics the lookup is total: for
id = 0 the index wraps to `usize::MAX`, which misses every store shorter than
`usize::MAX` entries, so the call returns the `AccountNotExists` error instead
of an out-of-range access. -/
theorem c10_lookup_total_wrapping (s : MemTransactionStorage)
    (h : s.storage.length < usizeSize) :
    s.transaction_by_id 0 = .error .AccountNotExists := by
  have hidx : byIdIndex 0 = usizeSize - 1 := by decide
  have hlen : s.storage.length ≤ byIdIndex 0 := by
    rw [hidx]
    omega
  unfold MemTransactionStorage.transaction_by_id
  rw [List.get?_eq_none.mpr hlen]

/-- Witness: the fresh store is shorter than `usize::MAX` and the lookup of
id 0 indeed errors. -/
theorem c10_lookup_total_wrapping_witness :
    MemTransactionStorage.new.storage.length < usizeSize ∧
      MemTransactionStorage.new.transaction_by_id 0 = .error .AccountNotExists :=
  ⟨by decide, c10_lookup_total_wrapping MemTransactionStorage.new (by decide)⟩

/-! ## C4: error conditions, in implementation order -/

/-- C4 (amended): error precedence follows the implementation order.
Transfer fails `AccountNotExists` if the sender is missing; otherwise
`EmptyTransaction` if value = 0; otherwise `NotEnoughMoney` if
value + fee > balance(sender); otherwise `AccountNotExists` if the receiver is
missing.  DecrementBalance(A, balance+1) fails `NotEnoughMoney`;
DecrementBalance(A, 0) and IncrementBalance(A, 0) fail `EmptyTransaction`
(the last also for a missing account, as the value check comes first). -/
theorem c4_error_conditions :
    (∀ (b : Bank) (source target : String) (value : Nat),
      alookup b.acc_storage.storage source = none →
      (b.make_transaction source target value).1 = .error .AccountNotExists) ∧
    (∀ (b : Bank) (source target : String) (acc : AccountTransfer),
      alookup b.acc_storage.storage source = some acc →
      (b.make_transaction source target 0).1 = .error .EmptyTransaction) ∧
    (∀ (b : Bank) (source target : String) (value : Nat) (acc : AccountTransfer),
      alookup b.acc_storage.storage source = some acc →
      value ≠ 0 → (value : Int) + (b.tr_fee : Int) > acc.balance →
      (b.make_transaction source target value).1 = .error .NotEnoughMoney) ∧
    (∀ (b : Bank) (source target : String) (value : Nat) (acc : AccountTransfer),
      alookup b.acc_storage.storage source = some acc →
      value ≠ 0 → (value : Int) + (b.tr_fee : Int) ≤ acc.balance →
      alookup b.acc_storage.storage target = none →
      (b.make_transaction source target value).1 = .error .AccountNotExists) ∧
    (∀ (b : Bank) (name : String) (B : Nat) (acc : AccountTransfer),
      alookup b.acc_storage.storage name = some acc → acc.balance = (B : Int) →
      (b.decr_acc_balance name (B + 1)).1 = .error .NotEnoughMoney) ∧
    (∀ (b : Bank) (name : String) (acc : AccountTransfer),
      alookup b.acc_storage.storage name = some acc → 0 ≤ acc.balance →
      (b.decr_acc_balance name 0).1 = .error .EmptyTransaction) ∧
    (∀ (b : Bank) (name : String),
      (b.inc_acc_balance name 0).1 = .error .EmptyTransaction) := by
  refine ⟨?_, ?_, ?_, ?_, ?_, ?_, ?_⟩
  · intro b source target value h
    simp [Bank.make_transaction, Bank.account, MemAccountStorage.get_account, h,
      BankError.fromStorage]
  · intro b source target acc h
    simp [Bank.make_transaction, Bank.account, MemAccountStorage.get_account, h]
  · intro b source target value acc h hv hlt
    simp [Bank.make_transaction, Bank.account, MemAccountStorage.get_account, h, hv, hlt]
  · intro b source target value acc h hv hle htarget
    have hnlt : ¬((value : Int) + (b.tr_fee : Int) > acc.balance) := not_lt.mpr hle
    have htarget' : ∀ (l : List (String × AccountTransfer)),
        l.map Prod.fst = b.acc_storage.storage.map Prod.fst → alookup l target = none := by
      intro l hl
      rw [alookup_eq_none_iff, hl]
      exact alookup_eq_none_iff.mp htarget
    simp only [Bank.make_transaction, Bank.account, MemAccountStorage.get_account, h,
      if_neg hv, if_neg hnlt, MemAccountStorage.update_account]
    split
    · rename_i e heq
      cases hupd : alookup b.acc_storage.storage acc.name with
      | some old =>
          rw [hupd] at heq
          simp at heq
      | none =>
          rw [hupd] at heq
          injection heq with h2
          subst h2
          rfl
    · rename_i q heq
      cases hupd : alookup b.acc_storage.storage acc.name with
      | none =>
          rw [hupd] at heq
          simp at heq
      | some old =>
          rw [hupd] at heq
          injection heq with h2
          subst h2
          rw [htarget' _ (listUpdate_map_fst _ _ _)]
          simp [BankError.fromStorage]
  · intro b name B acc h hB
    have hlt : acc.balance < (B : Int) + 1 := by
      rw [hB]
      omega
    simp [Bank.decr_acc_balance, Bank.account, MemAccountStorage.get_account, h, hlt]
  · intro b name acc h h0
    have h1 : ¬(acc.balance < 0) := not_lt.mpr h0
    simp [Bank.decr_acc_balance, Bank.account, MemAccountStorage.get_account, h, h1]
  · intro b name
    simp [Bank.inc_acc_balance]

/-- Witness: each clause of the error-precedence theorem applied on the fee = 1
ledger with account A of balance 100. -/
theorem c4_error_conditions_witness :
    (selfBankBase.make_transaction "Q" "A" 5).1 = .error .AccountNotExists ∧
    (selfBankBase.make_transaction "A" "B" 0).1 = .error .EmptyTransaction ∧
    (selfBankBase.make_transaction "A" "B" 100).1 = .error .NotEnoughMoney ∧
    (selfBankBase.make_transaction "A" "Z" 5).1 = .error .AccountNotExists ∧
    (selfBankBase.decr_acc_balance "A" 101).1 = .error .NotEnoughMoney ∧
    (selfBankBase.decr_acc_balance "A" 0).1 = .error .EmptyTransaction ∧
    (selfBankBase.inc_acc_balance "A" 0).1 = .error .EmptyTransaction := by
  obtain ⟨h1, h2, h3, h4, h5, h6, h7⟩ := c4_error_conditions
  exact ⟨h1 selfBankBase "Q" "A" 5 (by decide),
         h2 selfBankBase "A" "B" { name := "A", balance := 100, trs := [1, 2] }
           (by decide),
         h3 selfBankBase "A" "B" 100 { name := "A", balance := 100, trs := [1, 2] }
           (by decide) (by decide) (by decide),
         h4 selfBankBase "A" "Z" 5 { name := "A", balance := 100, trs := [1, 2] }
           (by decide) (by decide) (by decide) (by decide),
         h5 selfBankBase "A" 100 { name := "A", balance := 100, trs := [1, 2] }
           (by decide) (by decide),
         h6 selfBankBase "A" { name := "A", balance := 100, trs := [1, 2] }
           (by decide) (by decide),
         h7 selfBankBase "A"⟩

/-! ## Decomposition of a successful transfer -/

/-- Full decomposition of a successful `make_transaction`: the guards that must
have held and the exact storage states written, including the optional
fee-crediting step. -/
theorem make_transaction_ok_elim {b : Bank} {s t : String} {v r : Nat} {b' : Bank}
    (h : b.make_transaction s t v = (.ok r, b')) :
    ∃ accF accT st1 st2 tr,
      alookup b.acc_storage.storage s = some accF ∧
      v ≠ 0 ∧
      (v : Int) + (b.tr_fee : Int) ≤ accF.balance ∧
      tr = (b.tr_storage.create_transaction s (.Transfer t v b.tr_fee)).1 ∧
      (∃ old, alookup b.acc_storage.storage accF.name = some old) ∧
      st1 = listUpdate b.acc_storage.storage accF.name
        { accF with
          balance := accF.balance - ((v : Int) + (b.tr_fee : Int)),
          trs := accF.trs ++ [tr.id] } ∧
      alookup st1 t = some accT ∧
      (∃ old, alookup st1 accT.name = some old) ∧
      st2 = listUpdate st1 accT.name
        { accT with
          balance := accT.balance + (v : Int),
          trs := accT.trs ++ [tr.id] } ∧
      r = tr.id ∧
      ((b.tr_fee = 0 ∧
        b' = { acc_storage := { storage := st2, fee_acc_name := b.acc_storage.fee_acc_name },
               tr_storage := (b.tr_storage.create_transaction s (.Transfer t v b.tr_fee)).2,
               tr_fee := b.tr_fee }) ∨
       (0 < b.tr_fee ∧ ∃ feeAcc,
         alookup st2 b.acc_storage.fee_acc_name = some feeAcc ∧
         (∃ old, alookup st2 feeAcc.name = some old) ∧
         b' = { acc_storage :=
                  { storage := listUpdate st2 feeAcc.name
                      { feeAcc with
                        balance := feeAcc.balance + (b.tr_fee : Int),
                        trs := feeAcc.trs ++
                          [((b.tr_storage.create_transaction s
                              (.Transfer t v b.tr_fee)).2.create_transaction feeAcc.name
                              (.Add b.tr_fee)).1.id] },
                    fee_acc_name := b.acc_storage.fee_acc_name },
                tr_storage := ((b.tr_storage.create_transaction s
                  (.Transfer t v b.tr_fee)).2.create_transaction feeAcc.name
                  (.Add b.tr_fee)).2,
                tr_fee := b.tr_fee })) := by
  simp only [Bank.make_transaction, Bank.account, MemAccountStorage.get_account,
    MemAccountStorage.update_account, MemAccountStorage.fee_account] at h
  cases hsrc : alookup b.acc_storage.storage s with
  | none =>
      rw [hsrc] at h
      simp at h
  | some accF =>
      rw [hsrc] at h
      by_cases hv : v = 0
      · simp only [if_pos hv] at h
        simp at h
      · simp only [if_neg hv] at h
        by_cases hbal : (v : Int) + (b.tr_fee : Int) > accF.balance
        · rw [if_pos hbal] at h
          simp at h
        · rw [if_neg hbal] at h
          cases hold : alookup b.acc_storage.storage accF.name with
          | none =>
              rw [hold] at h
              simp at h
          | some old1 =>
              rw [hold] at h
              dsimp only at h
              cases hrecv : alookup (listUpdate b.acc_storage.storage accF.name
                  { accF with
                    balance := accF.balance - ((v : Int) + (b.tr_fee : Int)),
                    trs := accF.trs ++
                      [(b.tr_storage.create_transaction s
                        (.Transfer t v b.tr_fee)).1.id] }) t with
              | none =>
                  rw [hrecv] at h
                  simp at h
              | some accT =>
                  rw [hrecv] at h
                  dsimp only at h
                  cases holdT : alookup (listUpdate b.acc_storage.storage accF.name
                      { accF with
                        balance := accF.balance - ((v : Int) + (b.tr_fee : Int)),
                        trs := accF.trs ++
                          [(b.tr_storage.create_transaction s
                            (.Transfer t v b.tr_fee)).1.id] }) accT.name with
                  | none =>
                      rw [holdT] at h
                      simp at h
                  | some oldT =>
                      rw [holdT] at h
                      dsimp only at h
                      by_cases hfee : b.tr_fee > 0
                      · rw [if_pos hfee] at h
                        cases hfa : alookup (listUpdate (listUpdate b.acc_storage.storage
                            accF.name
                            { accF with
                              balance := accF.balance - ((v : Int) + (b.tr_fee : Int)),
                              trs := accF.trs ++
                                [(b.tr_storage.create_transaction s
                                  (.Transfer t v b.tr_fee)).1.id] }) accT.name
                            { accT with
                              balance := accT.balance + (v : Int),
                              trs := accT.trs ++
                                [(b.tr_storage.create_transaction s
                                  (.Transfer t v b.tr_fee)).1.id] })
                            b.acc_storage.fee_acc_name with
                        | none =>
                            rw [hfa] at h
                            simp at h
                        | some feeAcc =>
                            rw [hfa] at h
                            dsimp only at h
                            cases holdF : alookup (listUpdate (listUpdate
                                b.acc_storage.storage accF.name
                                { accF with
                                  balance := accF.balance - ((v : Int) + (b.tr_fee : Int)),
                                  trs := accF.trs ++
                                    [(b.tr_storage.create_transaction s
                                      (.Transfer t v b.tr_fee)).1.id] }) accT.name
                                { accT with
                                  balance := accT.balance + (v : Int),
                                  trs := accT.trs ++
                                    [(b.tr_storage.create_transaction s
                                      (.Transfer t v b.tr_fee)).1.id] })
                                feeAcc.name with
                            | none =>
                                rw [holdF] at h
                                simp at h
                            | some oldF =>
                                rw [holdF] at h
                                dsimp only at h
                                injection h with h1 h2
                                injection h1 with h1
                                refine ⟨accF, accT, _, _, _, rfl, hv, not_lt.mp hbal,
                                  rfl, ⟨old1, hold⟩, rfl, hrecv, ⟨oldT, holdT⟩, rfl,
                                  h1.symm, Or.inr ⟨hfee, feeAcc, hfa, ⟨oldF, holdF⟩,
                                  h2.symm⟩⟩
                      · rw [if_neg hfee] at h
                        injection h with h1 h2
                        injection h1 with h1
                        refine ⟨accF, accT, _, _, _, rfl, hv, not_lt.mp hbal,
                          rfl, ⟨old1, hold⟩, rfl, hrecv, ⟨oldT, holdT⟩, rfl,
                          h1.symm, Or.inl ⟨Nat.eq_zero_of_not_pos hfee, h2.symm⟩⟩

theorem listUpdate_name_inv {l : List (String × AccountTransfer)} {key : String}
    {v : AccountTransfer} (h : ∀ p ∈ l, p.2.name = p.1) (hv : v.name = key) :
    ∀ p ∈ listUpdate l key v, p.2.name = p.1 := by
  intro p hp
  simp only [listUpdate, List.mem_map] at hp
  obtain ⟨q, hq, rfl⟩ := hp
  by_cases hq1 : q.1 = key
  · simp [if_pos hq1, hv]
  · simp [if_neg hq1, h q hq]

/-- C1 (amended): every successful transfer conserves the total balance held
across all accounts, and when sender, receiver and fee account are pairwise
distinct the literal three-term sum of the claim is conserved as well. -/
theorem c1_total_balance_conserved
    (b : Bank) (source target : String) (value r : Nat) (b' : Bank)
    (hnd : (b.acc_storage.storage.map Prod.fst).Nodup)
    (hname : ∀ p ∈ b.acc_storage.storage, p.2.name = p.1)
    (h : b.make_transaction source target value = (.ok r, b')) :
    totalBalance b' = totalBalance b ∧
    (∀ bs bt bf, source ≠ target → source ≠ b.acc_storage.fee_acc_name →
      target ≠ b.acc_storage.fee_acc_name →
      alookup b.acc_storage.storage source = some bs →
      alookup b.acc_storage.storage target = some bt →
      alookup b.acc_storage.storage b.acc_storage.fee_acc_name = some bf →
      ∃ bs' bt' bf',
        alookup b'.acc_storage.storage source = some bs' ∧
        alookup b'.acc_storage.storage target = some bt' ∧
        alookup b'.acc_storage.storage b.acc_storage.fee_acc_name = some bf' ∧
        bs'.balance + bt'.balance + bf'.balance =
          bs.balance + bt.balance + bf.balance) := by
  obtain ⟨accF, accT, st1, st2, tr, hsrc, hv, hbal, htr, ⟨old1, hold⟩, hst1, hrecv,
    ⟨oldT, holdT⟩, hst2, hr, hrest⟩ := make_transaction_ok_elim h
  have hnameF : accF.name = source := hname _ (alookup_mem hsrc)
  have holdF : alookup b.acc_storage.storage accF.name = some accF := by
    rw [hnameF]
    exact hsrc
  have hkeys1 : st1.map Prod.fst = b.acc_storage.storage.map Prod.fst := by
    rw [hst1]
    exact listUpdate_map_fst _ _ _
  have hnd1 : (st1.map Prod.fst).Nodup := by
    rw [hkeys1]
    exact hnd
  have hname1 : ∀ p ∈ st1, p.2.name = p.1 := by
    rw [hst1]
    exact listUpdate_name_inv hname rfl
  have hnameT : accT.name = target := hname1 _ (alookup_mem hrecv)
  have holdT' : alookup st1 accT.name = some accT := by
    rw [hnameT]
    exact hrecv
  have hkeys2 : st2.map Prod.fst = b.acc_storage.storage.map Prod.fst := by
    rw [hst2, listUpdate_map_fst]
    exact hkeys1
  have hnd2 : (st2.map Prod.fst).Nodup := by
    rw [hkeys2]
    exact hnd
  have hname2 : ∀ p ∈ st2, p.2.name = p.1 := by
    rw [hst2]
    exact listUpdate_name_inv hname1 rfl
  have hsum1 : (st1.map fun p => p.2.balance).sum =
      (b.acc_storage.storage.map fun p => p.2.balance).sum - accF.balance +
        (accF.balance - ((value : Int) + (b.tr_fee : Int))) := by
    rw [hst1]
    exact sum_listUpdate _ hnd holdF
  have hsum2 : (st2.map fun p => p.2.balance).sum =
      (st1.map fun p => p.2.balance).sum - accT.balance +
        (accT.balance + (value : Int)) := by
    rw [hst2]
    exact sum_listUpdate _ hnd1 holdT'
  constructor
  · rcases hrest with ⟨hfee0, hb'⟩ | ⟨hfeepos, feeAcc, hfa, ⟨oldF, holdFF⟩, hb'⟩
    · rw [hb']
      simp only [totalBalance]
      rw [hsum2, hsum1, hfee0]
      push_cast
      ring
    · have hnameFee : feeAcc.name = b.acc_storage.fee_acc_name :=
        hname2 _ (alookup_mem hfa)
      have hfa' : alookup st2 feeAcc.name = some feeAcc := by
        rw [hnameFee]
        exact hfa
      rw [hb']
      simp only [totalBalance]
      rw [sum_listUpdate _ hnd2 hfa', hsum2, hsum1]
      push_cast
      ring
  · intro bs bt bf hst hsf htf hbs hbt hbf
    have haccF : accF = bs := by
      rw [hsrc] at hbs
      injection hbs
    have haccT : accT = bt := by
      have : alookup st1 target = alookup b.acc_storage.storage target := by
        rw [hst1, hnameF]
        exact alookup_listUpdate_other _ (fun he => hst he.symm)
      rw [this, hbt] at hrecv
      injection hrecv with h2
      exact h2.symm
    have hlook_s_st1 : alookup st1 source =
        some { accF with
               balance := accF.balance - ((value : Int) + (b.tr_fee : Int)),
               trs := accF.trs ++ [tr.id] } := by
      rw [hst1, hnameF, alookup_listUpdate_self, hsrc]
      rfl
    have hlook_s_st2 : alookup st2 source = alookup st1 source := by
      rw [hst2, hnameT]
      exact alookup_listUpdate_other _ hst
    have hlook_t_st2 : alookup st2 target =
        some { accT with
               balance := accT.balance + (value : Int),
               trs := accT.trs ++ [tr.id] } := by
      rw [hst2, hnameT, alookup_listUpdate_self, hrecv]
      rfl
    have hlook_f_st1 : alookup st1 b.acc_storage.fee_acc_name =
        alookup b.acc_storage.storage b.acc_storage.fee_acc_name := by
      rw [hst1, hnameF]
      exact alookup_listUpdate_other _ (fun he => hsf he.symm)
    have hlook_f_st2 : alookup st2 b.acc_storage.fee_acc_name =
        alookup st1 b.acc_storage.fee_acc_name := by
      rw [hst2, hnameT]
      exact alookup_listUpdate_other _ (fun he => htf he.symm)
    rcases hrest with ⟨hfee0, hb'⟩ | ⟨hfeepos, feeAcc, hfa, ⟨oldF, holdFF⟩, hb'⟩
    · refine ⟨{ accF with
          balance := accF.balance - ((value : Int) + (b.tr_fee : Int)),
          trs := accF.trs ++ [tr.id] },
        { accT with
          balance := accT.balance + (value : Int),
          trs := accT.trs ++ [tr.id] }, bf, ?_, ?_, ?_, ?_⟩
      · rw [hb']
        show alookup st2 source = _
        rw [hlook_s_st2, hlook_s_st1]
      · rw [hb']
        exact hlook_t_st2
      · rw [hb']
        show alookup st2 _ = _
        rw [hlook_f_st2, hlook_f_st1]
        exact hbf
      · rw [← haccF, ← haccT]
        simp only [hfee0]
        push_cast
        ring
    · have hfeeAcc : feeAcc = bf := by
        have hfa2 := hfa
        rw [hlook_f_st2, hlook_f_st1, hbf] at hfa2
        injection hfa2 with h2
        exact h2.symm
      have hnameFee : feeAcc.name = b.acc_storage.fee_acc_name :=
        hname2 _ (alookup_mem hfa)
      refine ⟨{ accF with
          balance := accF.balance - ((value : Int) + (b.tr_fee : Int)),
          trs := accF.trs ++ [tr.id] },
        { accT with
          balance := accT.balance + (value : Int),
          trs := accT.trs ++ [tr.id] },
        { feeAcc with
          balance := feeAcc.balance + (b.tr_fee : Int),
          trs := feeAcc.trs ++
            [((b.tr_storage.create_transaction source
              (.Transfer target value b.tr_fee)).2.create_transaction feeAcc.name
              (.Add b.tr_fee)).1.id] }, ?_, ?_, ?_, ?_⟩
      · rw [hb']
        show alookup (listUpdate st2 feeAcc.name _) source = _
        rw [hnameFee, alookup_listUpdate_other _ hsf, hlook_s_st2, hlook_s_st1]
      · rw [hb']
        show alookup (listUpdate st2 feeAcc.name _) target = _
        rw [hnameFee, alookup_listUpdate_other _ htf]
        exact hlook_t_st2
      · rw [hb']
        show alookup (listUpdate st2 feeAcc.name _) _ = _
        rw [hnameFee, alookup_listUpdate_self, hfa]
        rfl
      · rw [← haccF, ← haccT, ← hfeeAcc]
        push_cast
        ring

/-- Witness: the transfer Transfer("A", "B", 10) on the scenario ledger
conserves the total balance. -/
theorem c1_total_balance_conserved_witness :
    totalBalance (scenarioBank.make_transaction "A" "B" 10).2 =
      totalBalance scenarioBank :=
  (c1_total_balance_conserved scenarioBank "A" "B" 10 6
    (scenarioBank.make_transaction "A" "B" 10).2
    (by decide) (by decide) (by decide)).1

/-! ## Trajectory and filter lemmas -/

theorem trajNonneg_sum {bal : Int} {l : List Int} (h : TrajNonneg bal l)
    (h0 : 0 ≤ bal) : 0 ≤ bal + l.sum := by
  induction l generalizing bal with
  | nil => simpa using h0
  | cons e rest ih =>
      obtain ⟨h1, h2⟩ := h
      have := ih h2 h1
      simp only [List.sum_cons]
      linarith

theorem trajNonneg_append_one {bal : Int} {l : List Int} {e : Int}
    (h : TrajNonneg bal l) (he : 0 ≤ bal + l.sum + e) :
    TrajNonneg bal (l ++ [e]) := by
  induction l generalizing bal with
  | nil =>
      refine ⟨?_, trivial⟩
      simpa using he
  | cons x rest ih =>
      obtain ⟨h1, h2⟩ := h
      refine ⟨h1, ih h2 ?_⟩
      simp only [List.sum_cons] at he
      linarith

theorem relevantTrs_append (k : String) (l1 l2 : List Transaction) :
    relevantTrs k (l1 ++ l2) = relevantTrs k l1 ++ relevantTrs k l2 :=
  List.filter_append _ _

theorem effectsOf_append (k : String) (l1 l2 : List Transaction) :
    effectsOf k (l1 ++ l2) = effectsOf k l1 ++ effectsOf k l2 := by
  simp [effectsOf, relevantTrs_append]

theorem relevantTrs_single_pos {k : String} {tr : Transaction}
    (h : touches k tr = true) : relevantTrs k [tr] = [tr] := by
  simp [relevantTrs, List.filter, h]

theorem relevantTrs_single_neg {k : String} {tr : Transaction}
    (h : touches k tr = false) : relevantTrs k [tr] = [] := by
  simp [relevantTrs, List.filter, h]

theorem mem_listUpdate_cases {l : List (String × AccountTransfer)} {key : String}
    {v : AccountTransfer} {p : String × AccountTransfer}
    (h : p ∈ listUpdate l key v) : p = (key, v) ∨ (p ∈ l ∧ p.1 ≠ key) := by
  simp only [listUpdate, List.mem_map] at h
  obtain ⟨q, hq, rfl⟩ := h
  by_cases hq1 : q.1 = key
  · rw [if_pos hq1]
    exact Or.inl rfl
  · rw [if_neg hq1]
    exact Or.inr ⟨hq, hq1⟩

theorem isOk_elim {ε α : Type} {x : Except ε α} (h : x.isOk = true) :
    ∃ a, x = .ok a := by
  cases x with
  | ok a => exact ⟨a, rfl⟩
  | error e => simp [Except.isOk, Except.toBool] at h

/-! ## Decomposition of the other successful operations -/

theorem create_account_ok_elim {b : Bank} {name : String} {acc' : AccountTransfer}
    {b' : Bank} (h : b.create_account name = (.ok acc', b')) :
    alookup b.acc_storage.storage name = none ∧
    acc' = { name := name, balance := 0,
             trs := [(b.tr_storage.create_transaction name .Registration).1.id] } ∧
    b' = { acc_storage :=
             { storage := b.acc_storage.storage ++ [(name, acc')],
               fee_acc_name := b.acc_storage.fee_acc_name },
           tr_storage := (b.tr_storage.create_transaction name .Registration).2,
           tr_fee := b.tr_fee } := by
  simp only [Bank.create_account, MemAccountStorage.create_account] at h
  cases hlk : alookup b.acc_storage.storage name with
  | some old =>
      rw [hlk] at h
      simp at h
  | none =>
      rw [hlk] at h
      dsimp only at h
      injection h with h1 h2
      injection h1 with h1
      exact ⟨rfl, h1.symm, by rw [← h2, ← h1]⟩

theorem inc_acc_balance_ok_elim {b : Bank} {name : String} {v r : Nat} {b' : Bank}
    (h : b.inc_acc_balance name v = (.ok r, b')) :
    v ≠ 0 ∧
    ∃ acc, alookup b.acc_storage.storage name = some acc ∧
      (∃ old, alookup b.acc_storage.storage acc.name = some old) ∧
      r = (b.tr_storage.create_transaction name (.Add v)).1.id ∧
      b' = { acc_storage :=
               { storage := listUpdate b.acc_storage.storage acc.name
                   { acc with
                     balance := acc.balance + (v : Int),
                     trs := acc.trs ++ [(b.tr_storage.create_transaction name
                       (.Add v)).1.id] },
                 fee_acc_name := b.acc_storage.fee_acc_name },
             tr_storage := (b.tr_storage.create_transaction name (.Add v)).2,
             tr_fee := b.tr_fee } := by
  simp only [Bank.inc_acc_balance, Bank.account, MemAccountStorage.get_account,
    MemAccountStorage.update_account] at h
  by_cases hv : v = 0
  · rw [if_pos hv] at h
    simp at h
  · rw [if_neg hv] at h
    cases hlk : alookup b.acc_storage.storage name with
    | none =>
        rw [hlk] at h
        simp at h
    | some acc =>
        rw [hlk] at h
        dsimp only at h
        cases hold : alookup b.acc_storage.storage acc.name with
        | none =>
            rw [hold] at h
            simp at h
        | some old =>
            rw [hold] at h
            dsimp only at h
            injection h with h1 h2
            injection h1 with h1
            exact ⟨hv, acc, rfl, ⟨old, hold⟩, h1.symm, h2.symm⟩

theorem decr_acc_balance_ok_elim {b : Bank} {name : String} {v r : Nat} {b' : Bank}
    (h : b.decr_acc_balance name v = (.ok r, b')) :
    v ≠ 0 ∧
    ∃ acc, alookup b.acc_storage.storage name = some acc ∧
      (v : Int) ≤ acc.balance ∧
      (∃ old, alookup b.acc_storage.storage acc.name = some old) ∧
      r = (b.tr_storage.create_transaction name (.Withdraw v)).1.id ∧
      b' = { acc_storage :=
               { storage := listUpdate b.acc_storage.storage acc.name
                   { acc with
                     balance := acc.balance - (v : Int),
                     trs := acc.trs ++ [(b.tr_storage.create_transaction name
                       (.Withdraw v)).1.id] },
                 fee_acc_name := b.acc_storage.fee_acc_name },
             tr_storage := (b.tr_storage.create_transaction name (.Withdraw v)).2,
             tr_fee := b.tr_fee } := by
  simp only [Bank.decr_acc_balance, Bank.account, MemAccountStorage.get_account,
    MemAccountStorage.update_account] at h
  cases hlk : alookup b.acc_storage.storage name with
  | none =>
      rw [hlk] at h
      simp at h
  | some acc =>
      rw [hlk] at h
      dsimp only at h
      by_cases hbal : (v : Int) > acc.balance
      · rw [if_pos hbal] at h
        simp at h
      · rw [if_neg hbal] at h
        by_cases hv : v = 0
        · rw [if_pos hv] at h
          simp at h
        · rw [if_neg hv] at h
          cases hold : alookup b.acc_storage.storage acc.name with
          | none =>
              rw [hold] at h
              simp at h
          | some old =>
              rw [hold] at h
              dsimp only at h
              injection h with h1 h2
              injection h1 with h1
              exact ⟨hv, acc, rfl, not_lt.mp hbal, ⟨old, hold⟩, h1.symm, h2.symm⟩

/-! ## Log id discipline is preserved by every operation -/

theorem logIds_new : LogIds MemTransactionStorage.new := ⟨rfl, rfl⟩

theorem logIds_create_transaction (ts : MemTransactionStorage) (n : String)
    (a : TransactionAction) (h : LogIds ts) :
    LogIds (ts.create_transaction n a).2 := by
  obtain ⟨h1, h2⟩ := h
  constructor
  · simp only [MemTransactionStorage.create_transaction, List.map_append,
      List.length_append, h1, h2, List.map_cons, List.map_nil, List.length_cons,
      List.length_nil]
    rw [List.range'_concat]
    simp [Nat.add_comm]
  · simp [MemTransactionStorage.create_transaction, h2]

theorem logIds_step (b : Bank) (op : Op) (h : LogIds b.tr_storage) :
    LogIds (stepBank b op).tr_storage := by
  have hc := logIds_create_transaction
  cases op with
  | create name =>
      simp only [stepBank, Bank.create_account, MemAccountStorage.create_account]
      repeat' split
      all_goals dsimp only
      all_goals first
        | exact h
        | exact hc _ _ _ h
  | inc name value =>
      simp only [stepBank, Bank.inc_acc_balance, Bank.account,
        MemAccountStorage.get_account, MemAccountStorage.update_account]
      repeat' split
      all_goals dsimp only
      all_goals first
        | exact h
        | exact hc _ _ _ h
  | decr name value =>
      simp only [stepBank, Bank.decr_acc_balance, Bank.account,
        MemAccountStorage.get_account, MemAccountStorage.update_account]
      repeat' split
      all_goals dsimp only
      all_goals first
        | exact h
        | exact hc _ _ _ h
  | transfer source target value =>
      simp only [stepBank, Bank.make_transaction, Bank.account,
        MemAccountStorage.get_account, MemAccountStorage.update_account,
        MemAccountStorage.fee_account]
      repeat' split
      all_goals dsimp only
      all_goals first
        | exact h
        | exact hc _ _ _ h
        | exact hc _ _ _ (hc _ _ _ h)

theorem runOps_logIds (ops : List Op) (b : Bank) (h : LogIds b.tr_storage) :
    LogIds (runOps b ops).tr_storage := by
  induction ops generalizing b with
  | nil => exact h
  | cons op rest ih => exact ih _ (logIds_step b op h)

/-! ## Non-negativity is preserved by every operation -/

/-- Every stored account balance is non-negative. -/
def NonnegAccounts (st : List (String × AccountTransfer)) : Prop :=
  ∀ p ∈ st, 0 ≤ p.2.balance

theorem nonneg_listUpdate {l : List (String × AccountTransfer)} {key : String}
    {v : AccountTransfer} (hl : NonnegAccounts l) (hv : 0 ≤ v.balance) :
    NonnegAccounts (listUpdate l key v) := by
  intro p hp
  rcases mem_listUpdate_cases hp with he | ⟨hm, _⟩
  · rw [he]
    exact hv
  · exact hl p hm

theorem nonneg_step (b : Bank) (op : Op)
    (h : NonnegAccounts b.acc_storage.storage) :
    NonnegAccounts (stepBank b op).acc_storage.storage := by
  cases op with
  | create name =>
      simp only [stepBank, Bank.create_account, MemAccountStorage.create_account]
      cases hlk : alookup b.acc_storage.storage name with
      | some old =>
          dsimp only
          exact h
      | none =>
          dsimp only
          intro p hp
          rcases List.mem_append.mp hp with hm | hm
          · exact h p hm
          · simp only [List.mem_singleton] at hm
            rw [hm]
  | inc name value =>
      simp only [stepBank, Bank.inc_acc_balance, Bank.account,
        MemAccountStorage.get_account, MemAccountStorage.update_account]
      by_cases hv : value = 0
      · rw [if_pos hv]
        exact h
      · rw [if_neg hv]
        cases hlk : alookup b.acc_storage.storage name with
        | none =>
            dsimp only
            exact h
        | some acc =>
            dsimp only
            cases hold : alookup b.acc_storage.storage acc.name with
            | none =>
                dsimp only
                exact h
            | some old =>
                dsimp only
                refine nonneg_listUpdate h ?_
                have hacc : 0 ≤ acc.balance := h _ (alookup_mem hlk)
                have : (0 : Int) ≤ (value : Int) := Int.natCast_nonneg value
                dsimp only
                linarith
  | decr name value =>
      simp only [stepBank, Bank.decr_acc_balance, Bank.account,
        MemAccountStorage.get_account, MemAccountStorage.update_account]
      cases hlk : alookup b.acc_storage.storage name with
      | none =>
          dsimp only
          exact h
      | some acc =>
          dsimp only
          by_cases hbal : (value : Int) > acc.balance
          · rw [if_pos hbal]
            exact h
          · rw [if_neg hbal]
            by_cases hv : value = 0
            · rw [if_pos hv]
              exact h
            · rw [if_neg hv]
              cases hold : alookup b.acc_storage.storage acc.name with
              | none =>
                  dsimp only
                  exact h
              | some old =>
                  dsimp only
                  refine nonneg_listUpdate h ?_
                  dsimp only
                  have := not_lt.mp hbal
                  linarith
  | transfer source target value =>
      simp only [stepBank, Bank.make_transaction, Bank.account,
        MemAccountStorage.get_account, MemAccountStorage.update_account,
        MemAccountStorage.fee_account]
      cases hsrc : alookup b.acc_storage.storage source with
      | none =>
          dsimp only
          exact h
      | some accF =>
          dsimp only
          by_cases hv : value = 0
          · rw [if_pos hv]
            exact h
          · rw [if_neg hv]
            by_cases hbal : (value : Int) + (b.tr_fee : Int) > accF.balance
            · rw [if_pos hbal]
              exact h
            · rw [if_neg hbal]
              cases hold : alookup b.acc_storage.storage accF.name with
              | none =>
                  dsimp only
                  exact h
              | some old1 =>
                  dsimp only
                  have hst1 : NonnegAccounts (listUpdate b.acc_storage.storage
                      accF.name
                      { accF with
                        balance := accF.balance - ((value : Int) + (b.tr_fee : Int)),
                        trs := accF.trs ++
                          [(b.tr_storage.create_transaction source
                            (.Transfer target value b.tr_fee)).1.id] }) := by
                    refine nonneg_listUpdate h ?_
                    dsimp only
                    have := not_lt.mp hbal
                    linarith
                  cases hrecv : alookup (listUpdate b.acc_storage.storage accF.name
                      { accF with
                        balance := accF.balance - ((value : Int) + (b.tr_fee : Int)),
                        trs := accF.trs ++
                          [(b.tr_storage.create_transaction source
                            (.Transfer target value b.tr_fee)).1.id] }) target with
                  | none =>
                      dsimp only
                      exact hst1
                  | some accT =>
                      dsimp only
                      cases holdT : alookup (listUpdate b.acc_storage.storage
                          accF.name
                          { accF with
                            balance := accF.balance -
                              ((value : Int) + (b.tr_fee : Int)),
                            trs := accF.trs ++
                              [(b.tr_storage.create_transaction source
                                (.Transfer target value b.tr_fee)).1.id] })
                          accT.name with
                      | none =>
                          dsimp only
                          exact hst1
                      | some oldT =>
                          dsimp only
                          have hst2 : NonnegAccounts (listUpdate
                              (listUpdate b.acc_storage.storage accF.name
                                { accF with
                                  balance := accF.balance -
                                    ((value : Int) + (b.tr_fee : Int)),
                                  trs := accF.trs ++
                                    [(b.tr_storage.create_transaction source
                                      (.Transfer target value b.tr_fee)).1.id] })
                              accT.name
                              { accT with
                                balance := accT.balance + (value : Int),
                                trs := accT.trs ++
                                  [(b.tr_storage.create_transaction source
                                    (.Transfer target value b.tr_fee)).1.id] }) := by
                            refine nonneg_listUpdate hst1 ?_
                            dsimp only
                            have haccT : 0 ≤ accT.balance := hst1 _ (alookup_mem hrecv)
                            have : (0 : Int) ≤ (value : Int) := Int.natCast_nonneg value
                            linarith
                          by_cases hfee : b.tr_fee > 0
                          · rw [if_pos hfee]
                            generalize hstg : listUpdate (listUpdate
                                b.acc_storage.storage accF.name
                                { accF with
                                  balance := accF.balance -
                                    ((value : Int) + (b.tr_fee : Int)),
                                  trs := accF.trs ++
                                    [(b.tr_storage.create_transaction source
                                      (.Transfer target value b.tr_fee)).1.id] })
                                accT.name
                                { accT with
                                  balance := accT.balance + (value : Int),
                                  trs := accT.trs ++
                                    [(b.tr_storage.create_transaction source
                                      (.Transfer target value b.tr_fee)).1.id] } =
                                st2 at hst2 ⊢
                            cases hfa : alookup st2 b.acc_storage.fee_acc_name with
                            | none =>
                                dsimp only
                                exact hst2
                            | some feeAcc =>
                                dsimp only
                                cases holdF : alookup st2 feeAcc.name with
                                | none =>
                                    dsimp only
                                    exact hst2
                                | some oldF =>
                                    dsimp only
                                    refine nonneg_listUpdate hst2 ?_
                                    dsimp only
                                    have hfAcc : 0 ≤ feeAcc.balance :=
                                      hst2 _ (alookup_mem hfa)
                                    have : (0 : Int) ≤ (b.tr_fee : Int) :=
                                      Int.natCast_nonneg b.tr_fee
                                    linarith
                          · rw [if_neg hfee]
                            exact hst2

theorem runOps_nonneg (ops : List Op) (b : Bank)
    (h : NonnegAccounts b.acc_storage.storage) :
    NonnegAccounts (runOps b ops).acc_storage.storage := by
  induction ops generalizing b with
  | nil => exact h
  | cons op rest ih => exact ih _ (nonneg_step b op h)

/-! ## More association-list and touches lemmas -/

theorem alookup_append_some {β : Type} {l1 : List (String × β)}
    (l2 : List (String × β)) {k : String} {v : β} (h : alookup l1 k = some v) :
    alookup (l1 ++ l2) k = some v := by
  induction l1 with
  | nil => simp [alookup] at h
  | cons p rest ih =>
      simp only [alookup, List.cons_append] at h ⊢
      by_cases hp : p.1 = k
      · rwa [if_pos hp] at h ⊢
      · rw [if_neg hp] at h ⊢
        exact ih h

theorem alookup_append_none {β : Type} {l1 : List (String × β)}
    (l2 : List (String × β)) {k : String} (h : alookup l1 k = none) :
    alookup (l1 ++ l2) k = alookup l2 k := by
  induction l1 with
  | nil => rfl
  | cons p rest ih =>
      simp only [alookup, List.cons_append] at h ⊢
      by_cases hp : p.1 = k
      · rw [if_pos hp] at h
        cases h
      · rw [if_neg hp] at h ⊢
        exact ih h

theorem alookup_isSome_iff {β : Type} {l : List (String × β)} {k : String} :
    (alookup l k).isSome = true ↔ k ∈ l.map Prod.fst := by
  cases h : alookup l k with
  | none =>
      simp only [Option.isSome_none]
      constructor
      · intro hfalse
        cases hfalse
      · intro hmem
        exact absurd hmem (alookup_eq_none_iff.mp h)
  | some v =>
      simp only [Option.isSome_some, true_iff]
      by_contra hmem
      rw [alookup_eq_none_iff.mpr hmem] at h
      cases h

theorem touches_elim {k : String} {tr : Transaction} (h : touches k tr = true) :
    tr.account_name = k ∨ ∃ tgt v f, tr.action = .Transfer tgt v f ∧ tgt = k := by
  unfold touches at h
  by_cases h1 : tr.account_name = k
  · exact Or.inl h1
  · rw [if_neg h1] at h
    cases ha : tr.action with
    | Registration => rw [ha] at h; dsimp only at h; cases h
    | Add v => rw [ha] at h; dsimp only at h; cases h
    | Withdraw v => rw [ha] at h; dsimp only at h; cases h
    | Transfer tgt v f =>
        rw [ha] at h
        dsimp only at h
        by_cases h2 : tgt = k
        · exact Or.inr ⟨tgt, v, f, rfl, h2⟩
        · rw [if_neg h2] at h
          cases h

theorem touches_false {k : String} {tr : Transaction} (h1 : tr.account_name ≠ k)
    (h2 : ∀ tgt v f, tr.action = .Transfer tgt v f → tgt ≠ k) :
    touches k tr = false := by
  unfold touches
  rw [if_neg h1]
  cases ha : tr.action with
  | Registration => rfl
  | Add v => rfl
  | Withdraw v => rfl
  | Transfer tgt v f =>
      dsimp only
      rw [if_neg (h2 tgt v f ha)]

theorem effectsOf_single_pos {k : String} {tr : Transaction}
    (h : touches k tr = true) : effectsOf k [tr] = [effect k tr] := by
  simp [effectsOf, relevantTrs_single_pos h]

theorem effectsOf_single_neg {k : String} {tr : Transaction}
    (h : touches k tr = false) : effectsOf k [tr] = [] := by
  simp [effectsOf, relevantTrs_single_neg h]

theorem relevantTrs_nil (k : String) {st : List (String × AccountTransfer)}
    {log : List Transaction}
    (htr : ∀ tr ∈ log, (alookup st tr.account_name).isSome = true ∧
      ∀ tgt v f, tr.action = .Transfer tgt v f → (alookup st tgt).isSome = true)
    (habs : alookup st k = none) : relevantTrs k log = [] := by
  rw [relevantTrs, List.filter_eq_nil_iff]
  intro tr htrmem
  intro htouch
  rcases touches_elim htouch with hacc | ⟨tgt, v, f, hact, htgt⟩
  · have := (htr tr htrmem).1
    rw [hacc, habs] at this
    cases this
  · have := (htr tr htrmem).2 tgt v f hact
    rw [htgt, habs] at this
    cases this

/-! ## The clean-reachability invariant -/

/-- The invariant every ledger reachable by successful non-self-transfer
operations satisfies: transaction ids are `1..n`; account keys are unique; every
stored account's name is its key; its transaction list is exactly the ids of the
log transactions touching it, in log order; its balance is the sum of their
effects; every logged transaction references existing accounts; no transfer is a
self-transfer; and every per-account effect list keeps all partial sums
non-negative. -/
structure CleanInv (b : Bank) : Prop where
  logIds : LogIds b.tr_storage
  keysNodup : (b.acc_storage.storage.map Prod.fst).Nodup
  acctName : ∀ p ∈ b.acc_storage.storage, p.2.name = p.1
  acctTrs : ∀ p ∈ b.acc_storage.storage,
    p.2.trs = (relevantTrs p.1 b.tr_storage.storage).map (·.id)
  acctBal : ∀ p ∈ b.acc_storage.storage,
    p.2.balance = (effectsOf p.1 b.tr_storage.storage).sum
  trAcct : ∀ tr ∈ b.tr_storage.storage,
    (alookup b.acc_storage.storage tr.account_name).isSome = true ∧
    ∀ tgt v f, tr.action = .Transfer tgt v f →
      (alookup b.acc_storage.storage tgt).isSome = true
  noSelf : ∀ tr ∈ b.tr_storage.storage,
    ∀ tgt v f, tr.action = .Transfer tgt v f → tgt ≠ tr.account_name
  traj : ∀ name, TrajNonneg 0 (effectsOf name b.tr_storage.storage)

theorem cleanInv_fresh (fee : Option Nat) : CleanInv (freshBank fee) := by
  refine ⟨⟨rfl, rfl⟩, ?_, ?_, ?_, ?_, ?_, ?_, ?_⟩
  · simp [freshBank, Bank.new, MemAccountStorage.new]
  · intro p hp
    simp only [freshBank, Bank.new, MemAccountStorage.new, List.mem_singleton] at hp
    rw [hp]
  · intro p hp
    simp only [freshBank, Bank.new, MemAccountStorage.new, List.mem_singleton] at hp
    rw [hp]
    rfl
  · intro p hp
    simp only [freshBank, Bank.new, MemAccountStorage.new, List.mem_singleton] at hp
    rw [hp]
    rfl
  · intro tr htr
    simp [freshBank, Bank.new, MemTransactionStorage.new] at htr
  · intro tr htr
    simp [freshBank, Bank.new, MemTransactionStorage.new] at htr
  · intro name
    exact trivial

theorem create_transaction_fst (ts : MemTransactionStorage) (n : String)
    (a : TransactionAction) :
    (ts.create_transaction n a).1 = ⟨ts.last_tr_id + 1, a, n⟩ := rfl

theorem create_transaction_storage (ts : MemTransactionStorage) (n : String)
    (a : TransactionAction) :
    (ts.create_transaction n a).2.storage =
      ts.storage ++ [⟨ts.last_tr_id + 1, a, n⟩] := rfl

theorem touches_account_name {k : String} {tr : Transaction}
    (h : tr.account_name = k) : touches k tr = true := by
  unfold touches
  rw [if_pos h]

/-! ## CleanInv preservation: create_account -/

theorem cleanInv_create {b : Bank} {name : String} {acc' : AccountTransfer}
    {b' : Bank} (hinv : CleanInv b) (h : b.create_account name = (.ok acc', b')) :
    CleanInv b' := by
  obtain ⟨hnone, hacc', hb'⟩ := create_account_ok_elim h
  have hname_notin : name ∉ b.acc_storage.storage.map Prod.fst :=
    alookup_eq_none_iff.mp hnone
  have hrel : ∀ k, relevantTrs k
      ((b.tr_storage.create_transaction name .Registration).2.storage) =
      relevantTrs k b.tr_storage.storage ++
        (if name = k then [⟨b.tr_storage.last_tr_id + 1, .Registration, name⟩]
         else []) := by
    intro k
    rw [create_transaction_storage, relevantTrs_append]
    by_cases hk : name = k
    · rw [if_pos hk, relevantTrs_single_pos (touches_account_name hk)]
    · rw [if_neg hk, relevantTrs_single_neg
        (touches_false hk (fun tgt v f hact => by cases hact))]
  have hrelE : ∀ k, effectsOf k
      ((b.tr_storage.create_transaction name .Registration).2.storage) =
      effectsOf k b.tr_storage.storage ++ (if name = k then [0] else []) := by
    intro k
    unfold effectsOf
    rw [hrel k]
    by_cases hk : name = k
    · rw [if_pos hk, if_pos hk, List.map_append]
      rfl
    · rw [if_neg hk, if_neg hk, List.append_nil, List.append_nil]
  subst hb'
  refine ⟨logIds_create_transaction _ _ _ hinv.logIds, ?_, ?_, ?_, ?_, ?_, ?_, ?_⟩
  · dsimp only
    rw [List.map_append]
    refine List.Nodup.append hinv.keysNodup (List.nodup_singleton _) ?_
    intro x hx hx2
    simp only [List.map_cons, List.map_nil, List.mem_singleton] at hx2
    rw [hx2] at hx
    exact hname_notin hx
  · intro p hp
    dsimp only at hp
    rcases List.mem_append.mp hp with hm | hm
    · exact hinv.acctName p hm
    · simp only [List.mem_singleton] at hm
      rw [hm, hacc']
  · intro p hp
    dsimp only at hp ⊢
    rcases List.mem_append.mp hp with hm | hm
    · have hp1 : p.1 ≠ name :=
        fun he => hname_notin (he ▸ List.mem_map_of_mem Prod.fst hm)
      rw [hrel p.1, if_neg (fun he => hp1 he.symm), List.append_nil]
      exact hinv.acctTrs p hm
    · simp only [List.mem_singleton] at hm
      rw [hm, hacc']
      dsimp only
      rw [hrel name, if_pos rfl, relevantTrs_nil name hinv.trAcct hnone]
      rfl
  · intro p hp
    dsimp only at hp ⊢
    rcases List.mem_append.mp hp with hm | hm
    · have hp1 : p.1 ≠ name :=
        fun he => hname_notin (he ▸ List.mem_map_of_mem Prod.fst hm)
      rw [hrelE p.1, if_neg (fun he => hp1 he.symm), List.append_nil]
      exact hinv.acctBal p hm
    · simp only [List.mem_singleton] at hm
      rw [hm, hacc']
      dsimp only
      rw [hrelE name, if_pos rfl]
      unfold effectsOf
      rw [relevantTrs_nil name hinv.trAcct hnone]
      rfl
  · intro tr htr
    dsimp only at htr ⊢
    rw [create_transaction_storage] at htr
    rcases List.mem_append.mp htr with hm | hm
    · obtain ⟨h1, h2⟩ := hinv.trAcct tr hm
      constructor
      · rcases Option.isSome_iff_exists.mp h1 with ⟨w, hw⟩
        rw [alookup_append_some _ hw]
        rfl
      · intro tgt v f hact
        rcases Option.isSome_iff_exists.mp (h2 tgt v f hact) with ⟨w, hw⟩
        rw [alookup_append_some _ hw]
        rfl
    · simp only [List.mem_singleton] at hm
      rw [hm]
      constructor
      · rw [alookup_append_none _ hnone]
        simp [alookup]
      · intro tgt v f hact
        cases hact
  · intro tr htr
    dsimp only at htr
    rw [create_transaction_storage] at htr
    rcases List.mem_append.mp htr with hm | hm
    · exact hinv.noSelf tr hm
    · simp only [List.mem_singleton] at hm
      rw [hm]
      intro tgt v f hact
      cases hact
  · intro k
    dsimp only
    rw [hrelE k]
    by_cases hk : name = k
    · rw [if_pos hk]
      refine trajNonneg_append_one (hinv.traj k) ?_
      have := trajNonneg_sum (hinv.traj k) (le_refl 0)
      linarith
    · rw [if_neg hk, List.append_nil]
      exact hinv.traj k

/-! ## CleanInv preservation: single-account updates (inc / decr) -/

theorem cleanInv_single_update {b : Bank} (hinv : CleanInv b) {name : String}
    {acc : AccountTransfer} (hlk : alookup b.acc_storage.storage name = some acc)
    (act : TransactionAction) (delta newbal : Int)
    (hnt : ∀ tgt v f, act ≠ .Transfer tgt v f)
    (heff : effect name ⟨b.tr_storage.last_tr_id + 1, act, name⟩ = delta)
    (hbal_eq : newbal = acc.balance + delta)
    (hnn : 0 ≤ acc.balance + delta) :
    CleanInv { acc_storage :=
                 { storage := listUpdate b.acc_storage.storage acc.name
                     { acc with
                       balance := newbal,
                       trs := acc.trs ++
                         [(b.tr_storage.create_transaction name act).1.id] },
                   fee_acc_name := b.acc_storage.fee_acc_name },
               tr_storage := (b.tr_storage.create_transaction name act).2,
               tr_fee := b.tr_fee } := by
  have hname : acc.name = name := hinv.acctName _ (alookup_mem hlk)
  have hmem : (name, acc) ∈ b.acc_storage.storage := alookup_mem hlk
  have hsum : acc.balance = (effectsOf name b.tr_storage.storage).sum :=
    hinv.acctBal _ hmem
  have htrs : acc.trs = (relevantTrs name b.tr_storage.storage).map (·.id) :=
    hinv.acctTrs _ hmem
  have hrel : ∀ k,
      relevantTrs k ((b.tr_storage.create_transaction name act).2.storage) =
      relevantTrs k b.tr_storage.storage ++
        (if name = k then [⟨b.tr_storage.last_tr_id + 1, act, name⟩] else []) := by
    intro k
    rw [create_transaction_storage, relevantTrs_append]
    by_cases hk : name = k
    · rw [if_pos hk, relevantTrs_single_pos (touches_account_name hk)]
    · rw [if_neg hk, relevantTrs_single_neg
        (touches_false hk (fun tgt v f hact => absurd hact (hnt tgt v f)))]
  have hrelE : ∀ k,
      effectsOf k ((b.tr_storage.create_transaction name act).2.storage) =
      effectsOf k b.tr_storage.storage ++
        (if name = k then [effect k ⟨b.tr_storage.last_tr_id + 1, act, name⟩]
         else []) := by
    intro k
    unfold effectsOf
    rw [hrel k]
    by_cases hk : name = k
    · rw [if_pos hk, if_pos hk, List.map_append]
      rfl
    · rw [if_neg hk, if_neg hk, List.append_nil, List.append_nil]
  have hkeys : (listUpdate b.acc_storage.storage acc.name
      { acc with
        balance := newbal,
        trs := acc.trs ++
          [(b.tr_storage.create_transaction name act).1.id] }).map Prod.fst =
      b.acc_storage.storage.map Prod.fst := listUpdate_map_fst _ _ _
  refine ⟨logIds_create_transaction _ _ _ hinv.logIds, ?_, ?_, ?_, ?_, ?_, ?_, ?_⟩
  · dsimp only
    rw [hkeys]
    exact hinv.keysNodup
  · exact listUpdate_name_inv hinv.acctName rfl
  · intro p hp
    dsimp only at hp ⊢
    rcases mem_listUpdate_cases hp with he | ⟨hm, hne⟩
    · rw [he]
      dsimp only
      rw [hname, hrel name, if_pos rfl, List.map_append, ← htrs]
      rfl
    · have hne' : p.1 ≠ name := by
        rw [← hname]
        exact hne
      rw [hrel p.1, if_neg (fun hc => hne' hc.symm), List.append_nil]
      exact hinv.acctTrs p hm
  · intro p hp
    dsimp only at hp ⊢
    rcases mem_listUpdate_cases hp with he | ⟨hm, hne⟩
    · rw [he]
      dsimp only
      rw [hname, hrelE name, if_pos rfl, List.sum_append, ← hsum, heff, hbal_eq]
      simp
    · have hne' : p.1 ≠ name := by
        rw [← hname]
        exact hne
      rw [hrelE p.1, if_neg (fun hc => hne' hc.symm), List.append_nil]
      exact hinv.acctBal p hm
  · intro tr htr
    dsimp only at htr ⊢
    have hSome : ∀ k, (alookup (listUpdate b.acc_storage.storage acc.name
        { acc with
          balance := newbal,
          trs := acc.trs ++
            [(b.tr_storage.create_transaction name act).1.id] }) k).isSome =
          true ↔ (alookup b.acc_storage.storage k).isSome = true := by
      intro k
      rw [alookup_isSome_iff, alookup_isSome_iff, hkeys]
    rw [create_transaction_storage] at htr
    rcases List.mem_append.mp htr with hm | hm
    · obtain ⟨h1, h2⟩ := hinv.trAcct tr hm
      exact ⟨(hSome _).mpr h1, fun tgt v f hact => (hSome _).mpr (h2 tgt v f hact)⟩
    · simp only [List.mem_singleton] at hm
      rw [hm]
      constructor
      · refine (hSome name).mpr ?_
        rw [hlk]
        rfl
      · intro tgt v f hact
        exact absurd hact (hnt tgt v f)
  · intro tr htr
    dsimp only at htr
    rw [create_transaction_storage] at htr
    rcases List.mem_append.mp htr with hm | hm
    · exact hinv.noSelf tr hm
    · simp only [List.mem_singleton] at hm
      rw [hm]
      intro tgt v f hact
      exact absurd hact (hnt tgt v f)
  · intro k
    dsimp only
    rw [hrelE k]
    by_cases hk : name = k
    · rw [if_pos hk]
      refine trajNonneg_append_one (hinv.traj k) ?_
      subst hk
      rw [heff]
      rw [hsum] at hnn
      linarith
    · rw [if_neg hk, List.append_nil]
      exact hinv.traj k

theorem cleanInv_inc {b : Bank} {name : String} {v r : Nat} {b' : Bank}
    (hinv : CleanInv b) (h : b.inc_acc_balance name v = (.ok r, b')) :
    CleanInv b' := by
  obtain ⟨hv, acc, hlk, ⟨old, hold⟩, hr, hb'⟩ := inc_acc_balance_ok_elim h
  subst hb'
  have hbal0 : 0 ≤ acc.balance := by
    rw [hinv.acctBal _ (alookup_mem hlk)]
    have := trajNonneg_sum (hinv.traj name) (le_refl 0)
    linarith
  refine cleanInv_single_update hinv hlk (.Add v) (v : Int)
    (acc.balance + (v : Int))
    (fun tgt w f hact => by cases hact) rfl rfl ?_
  have : (0 : Int) ≤ (v : Int) := Int.natCast_nonneg v
  linarith

theorem cleanInv_decr {b : Bank} {name : String} {v r : Nat} {b' : Bank}
    (hinv : CleanInv b) (h : b.decr_acc_balance name v = (.ok r, b')) :
    CleanInv b' := by
  obtain ⟨hv, acc, hlk, hle, ⟨old, hold⟩, hr, hb'⟩ := decr_acc_balance_ok_elim h
  subst hb'
  refine cleanInv_single_update hinv hlk (.Withdraw v) (-(v : Int))
    (acc.balance - (v : Int))
    (fun tgt w f hact => by cases hact) rfl (by ring) ?_
  linarith

theorem touches_target {k : String} {tr : Transaction} {tgt : String} {v f : Nat}
    (hact : tr.action = .Transfer tgt v f) (h : tgt = k) : touches k tr = true := by
  unfold touches
  by_cases h1 : tr.account_name = k
  · rw [if_pos h1]
  · rw [if_neg h1, hact]
    dsimp only
    rw [if_pos h]

theorem effect_transfer_pos {k t : String} {id : Nat} {v f : Nat} {n : String}
    (h : t = k) : effect k ⟨id, .Transfer t v f, n⟩ = (v : Int) := by
  simp [effect, h]

theorem effect_transfer_neg {k t : String} {id : Nat} {v f : Nat} {n : String}
    (h : t ≠ k) : effect k ⟨id, .Transfer t v f, n⟩ = -((v : Int) + (f : Int)) := by
  simp [effect, h]

/-! ## CleanInv preservation: the two storage updates of a transfer -/

theorem cleanInv_two_update {b : Bank} (hinv : CleanInv b) {s t : String} {v : Nat}
    (hst : s ≠ t) {accF accT : AccountTransfer}
    (hsrc : alookup b.acc_storage.storage s = some accF)
    (hlookT : alookup b.acc_storage.storage t = some accT)
    (hbal : (v : Int) + (b.tr_fee : Int) ≤ accF.balance) :
    CleanInv { acc_storage :=
                 { storage := listUpdate (listUpdate b.acc_storage.storage accF.name
                     { accF with
                       balance := accF.balance - ((v : Int) + (b.tr_fee : Int)),
                       trs := accF.trs ++
                         [(b.tr_storage.create_transaction s
                           (.Transfer t v b.tr_fee)).1.id] })
                     accT.name
                     { accT with
                       balance := accT.balance + (v : Int),
                       trs := accT.trs ++
                         [(b.tr_storage.create_transaction s
                           (.Transfer t v b.tr_fee)).1.id] },
                   fee_acc_name := b.acc_storage.fee_acc_name },
               tr_storage := (b.tr_storage.create_transaction s
                 (.Transfer t v b.tr_fee)).2,
               tr_fee := b.tr_fee } := by
  have hnameF : accF.name = s := hinv.acctName _ (alookup_mem hsrc)
  have hnameT : accT.name = t := hinv.acctName _ (alookup_mem hlookT)
  have hFneT : accF.name ≠ accT.name := by
    rw [hnameF, hnameT]
    exact hst
  have htrsF : accF.trs = (relevantTrs s b.tr_storage.storage).map (·.id) :=
    hinv.acctTrs _ (alookup_mem hsrc)
  have htrsT : accT.trs = (relevantTrs t b.tr_storage.storage).map (·.id) :=
    hinv.acctTrs _ (alookup_mem hlookT)
  have hbalF : accF.balance = (effectsOf s b.tr_storage.storage).sum :=
    hinv.acctBal _ (alookup_mem hsrc)
  have hbalT : accT.balance = (effectsOf t b.tr_storage.storage).sum :=
    hinv.acctBal _ (alookup_mem hlookT)
  have htch : ∀ k, touches k
      ⟨b.tr_storage.last_tr_id + 1, .Transfer t v b.tr_fee, s⟩ = true ↔
      (s = k ∨ t = k) := by
    intro k
    constructor
    · intro h
      rcases touches_elim h with h1 | ⟨tgt, v2, f2, hact, htgt⟩
      · exact Or.inl h1
      · injection hact with e1 e2 e3
        exact Or.inr (e1 ▸ htgt)
    · intro h
      rcases h with h | h
      · exact touches_account_name h
      · exact touches_target rfl h
  have hrel : ∀ k, relevantTrs k
      ((b.tr_storage.create_transaction s (.Transfer t v b.tr_fee)).2.storage) =
      relevantTrs k b.tr_storage.storage ++
        (if s = k ∨ t = k
         then [⟨b.tr_storage.last_tr_id + 1, .Transfer t v b.tr_fee, s⟩]
         else []) := by
    intro k
    rw [create_transaction_storage, relevantTrs_append]
    by_cases hk : s = k ∨ t = k
    · rw [if_pos hk, relevantTrs_single_pos ((htch k).mpr hk)]
    · rw [if_neg hk, relevantTrs_single_neg ?_]
      cases htc : touches k ⟨b.tr_storage.last_tr_id + 1, .Transfer t v b.tr_fee, s⟩
      · rfl
      · exact absurd ((htch k).mp htc) hk
  have hrelE : ∀ k, effectsOf k
      ((b.tr_storage.create_transaction s (.Transfer t v b.tr_fee)).2.storage) =
      effectsOf k b.tr_storage.storage ++
        (if s = k ∨ t = k
         then [effect k ⟨b.tr_storage.last_tr_id + 1, .Transfer t v b.tr_fee, s⟩]
         else []) := by
    intro k
    unfold effectsOf
    rw [hrel k]
    by_cases hk : s = k ∨ t = k
    · rw [if_pos hk, if_pos hk, List.map_append]
      rfl
    · rw [if_neg hk, if_neg hk, List.append_nil, List.append_nil]
  have hkeys2 : (listUpdate (listUpdate b.acc_storage.storage accF.name
      { accF with
        balance := accF.balance - ((v : Int) + (b.tr_fee : Int)),
        trs := accF.trs ++
          [(b.tr_storage.create_transaction s (.Transfer t v b.tr_fee)).1.id] })
      accT.name
      { accT with
        balance := accT.balance + (v : Int),
        trs := accT.trs ++
          [(b.tr_storage.create_transaction s (.Transfer t v b.tr_fee)).1.id] }).map
        Prod.fst = b.acc_storage.storage.map Prod.fst := by
    rw [listUpdate_map_fst, listUpdate_map_fst]
  refine ⟨logIds_create_transaction _ _ _ hinv.logIds, ?_, ?_, ?_, ?_, ?_, ?_, ?_⟩
  · dsimp only
    rw [hkeys2]
    exact hinv.keysNodup
  · exact listUpdate_name_inv (listUpdate_name_inv hinv.acctName rfl) rfl
  · intro p hp
    dsimp only at hp ⊢
    rcases mem_listUpdate_cases hp with he | ⟨hp1, hneT⟩
    · rw [he]
      dsimp only
      rw [hnameT, hrel t, if_pos (Or.inr rfl), List.map_append, ← htrsT]
      rfl
    · rcases mem_listUpdate_cases hp1 with he | ⟨hp2, hneF⟩
      · rw [he]
        dsimp only
        rw [hnameF, hrel s, if_pos (Or.inl rfl), List.map_append, ← htrsF]
        rfl
      · have hns : s ≠ p.1 := by
          intro hc
          exact hneF (by rw [hnameF, hc])
        have hnt : t ≠ p.1 := by
          intro hc
          exact hneT (by rw [hnameT, hc])
        have hnk : ¬(s = p.1 ∨ t = p.1) := by
          intro hc
          rcases hc with hc | hc
          · exact hns hc
          · exact hnt hc
        rw [hrel p.1, if_neg hnk, List.append_nil]
        exact hinv.acctTrs p hp2
  · intro p hp
    dsimp only at hp ⊢
    rcases mem_listUpdate_cases hp with he | ⟨hp1, hneT⟩
    · rw [he]
      dsimp only
      rw [hnameT, hrelE t, if_pos (Or.inr rfl), List.sum_append, ← hbalT,
        effect_transfer_pos rfl]
      simp
    · rcases mem_listUpdate_cases hp1 with he | ⟨hp2, hneF⟩
      · rw [he]
        dsimp only
        rw [hnameF, hrelE s, if_pos (Or.inl rfl), List.sum_append, ← hbalF,
          effect_transfer_neg (fun hc => hst hc.symm)]
        simp only [List.sum_cons, List.sum_nil]
        ring
      · have hns : s ≠ p.1 := by
          intro hc
          exact hneF (by rw [hnameF, hc])
        have hnt : t ≠ p.1 := by
          intro hc
          exact hneT (by rw [hnameT, hc])
        have hnk : ¬(s = p.1 ∨ t = p.1) := by
          intro hc
          rcases hc with hc | hc
          · exact hns hc
          · exact hnt hc
        rw [hrelE p.1, if_neg hnk, List.append_nil]
        exact hinv.acctBal p hp2
  · intro tr htr
    dsimp only at htr ⊢
    have hSome : ∀ k, (alookup b.acc_storage.storage k).isSome = true →
        (alookup (listUpdate (listUpdate b.acc_storage.storage accF.name
          { accF with
            balance := accF.balance - ((v : Int) + (b.tr_fee : Int)),
            trs := accF.trs ++
              [(b.tr_storage.create_transaction s
                (.Transfer t v b.tr_fee)).1.id] })
          accT.name
          { accT with
            balance := accT.balance + (v : Int),
            trs := accT.trs ++
              [(b.tr_storage.create_transaction s
                (.Transfer t v b.tr_fee)).1.id] }) k).isSome = true := by
      intro k hk
      rw [alookup_isSome_iff, hkeys2]
      exact alookup_isSome_iff.mp hk
    rw [create_transaction_storage] at htr
    rcases List.mem_append.mp htr with hm | hm
    · obtain ⟨h1, h2⟩ := hinv.trAcct tr hm
      exact ⟨hSome _ h1, fun tgt v2 f2 hact => hSome _ (h2 tgt v2 f2 hact)⟩
    · simp only [List.mem_singleton] at hm
      rw [hm]
      constructor
      · refine hSome s ?_
        rw [hsrc]
        rfl
      · intro tgt v2 f2 hact
        injection hact with e1 e2 e3
        subst e1
        refine hSome t ?_
        rw [hlookT]
        rfl
  · intro tr htr
    dsimp only at htr
    rw [create_transaction_storage] at htr
    rcases List.mem_append.mp htr with hm | hm
    · exact hinv.noSelf tr hm
    · simp only [List.mem_singleton] at hm
      rw [hm]
      intro tgt v2 f2 hact
      injection hact with e1 e2 e3
      subst e1
      exact fun hc => hst hc.symm
  · intro k
    dsimp only
    rw [hrelE k]
    by_cases hks : s = k
    · have hkt : t ≠ k := by
        rw [← hks]
        exact fun hc => hst hc.symm
      rw [if_pos (Or.inl hks), effect_transfer_neg hkt]
      refine trajNonneg_append_one (hinv.traj k) ?_
      rw [← hks, ← hbalF]
      linarith
    · by_cases hkt : t = k
      · rw [if_pos (Or.inr hkt), effect_transfer_pos hkt]
        refine trajNonneg_append_one (hinv.traj k) ?_
        rw [← hkt, ← hbalT]
        have h0 : (0 : Int) ≤ (v : Int) := Int.natCast_nonneg v
        have hT0 : 0 ≤ accT.balance := by
          rw [hbalT]
          have := trajNonneg_sum (hinv.traj t) (le_refl 0)
          linarith
        linarith
      · have hnk : ¬(s = k ∨ t = k) := by
          intro hc
          rcases hc with hc | hc
          · exact hks hc
          · exact hkt hc
        rw [if_neg hnk, List.append_nil]
        exact hinv.traj k

theorem cleanInv_transfer {b : Bank} {s t : String} {v r : Nat} {b' : Bank}
    (hinv : CleanInv b) (hst : s ≠ t)
    (h : b.make_transaction s t v = (.ok r, b')) : CleanInv b' := by
  obtain ⟨accF, accT, st1, st2, tr, hsrc, hv, hbal, htr, ⟨old1, hold⟩, hst1, hrecv,
    ⟨oldT, holdT⟩, hst2, hr, hrest⟩ := make_transaction_ok_elim h
  subst htr
  have hnameF : accF.name = s := hinv.acctName _ (alookup_mem hsrc)
  have hlookT : alookup b.acc_storage.storage t = some accT := by
    rw [← hrecv, hst1, hnameF]
    exact (alookup_listUpdate_other _ (fun he => hst he.symm)).symm
  have hinv2 := cleanInv_two_update hinv hst hsrc hlookT hbal
  subst hst1
  subst hst2
  rcases hrest with ⟨hfee0, hb'⟩ | ⟨hfeepos, feeAcc, hfa, ⟨oldF, holdFF⟩, hb'⟩
  · subst hb'
    exact hinv2
  · subst hb'
    have hnameFee : feeAcc.name = b.acc_storage.fee_acc_name :=
      hinv2.acctName _ (alookup_mem hfa)
    have hfa' : alookup (listUpdate (listUpdate b.acc_storage.storage accF.name
        { accF with
          balance := accF.balance - ((v : Int) + (b.tr_fee : Int)),
          trs := accF.trs ++
            [(b.tr_storage.create_transaction s (.Transfer t v b.tr_fee)).1.id] })
        accT.name
        { accT with
          balance := accT.balance + (v : Int),
          trs := accT.trs ++
            [(b.tr_storage.create_transaction s
              (.Transfer t v b.tr_fee)).1.id] }) feeAcc.name = some feeAcc := by
      rw [hnameFee]
      exact hfa
    have hfbal : 0 ≤ feeAcc.balance := by
      rw [hinv2.acctBal _ (alookup_mem hfa')]
      have := trajNonneg_sum (hinv2.traj feeAcc.name) (le_refl 0)
      linarith
    refine cleanInv_single_update hinv2 hfa' (.Add b.tr_fee) (b.tr_fee : Int)
      (feeAcc.balance + (b.tr_fee : Int))
      (fun tgt w f hact => by cases hact) rfl rfl ?_
    have : (0 : Int) ≤ (b.tr_fee : Int) := Int.natCast_nonneg b.tr_fee
    linarith

/-- Every cleanly reachable ledger satisfies the full invariant. -/
theorem cleanReach_inv {b : Bank} (h : CleanReach b) : CleanInv b := by
  induction h with
  | fresh fee => exact cleanInv_fresh fee
  | create name hcr hok ih =>
      obtain ⟨a, ha⟩ := isOk_elim hok
      exact cleanInv_create ih (Prod.ext ha rfl)
  | inc name value hcr hok ih =>
      obtain ⟨a, ha⟩ := isOk_elim hok
      exact cleanInv_inc ih (Prod.ext ha rfl)
  | decr name value hcr hok ih =>
      obtain ⟨a, ha⟩ := isOk_elim hok
      exact cleanInv_decr ih (Prod.ext ha rfl)
  | transfer source target value hcr hst hok ih =>
      obtain ⟨a, ha⟩ := isOk_elim hok
      exact cleanInv_transfer ih hst (Prod.ext ha rfl)

/-! ## Replay lemmas -/

theorem alookup_mapPush_self (m : List (String × List Transaction)) (k : String)
    (tr : Transaction) :
    alookup (mapPush m k tr) k = some ((alookup m k).getD [] ++ [tr]) := by
  induction m with
  | nil => simp [mapPush, alookup]
  | cons p rest ih =>
      by_cases hp : p.1 = k
      · simp [mapPush, alookup, hp]
      · simp only [mapPush, if_neg hp, alookup, if_neg hp]
        exact ih

theorem alookup_mapPush_other (m : List (String × List Transaction)) (k : String)
    (tr : Transaction) {k' : String} (h : k' ≠ k) :
    alookup (mapPush m k tr) k' = alookup m k' := by
  induction m with
  | nil =>
      simp only [mapPush, alookup]
      rw [if_neg (fun hc => h hc.symm)]
  | cons p rest ih =>
      by_cases hp : p.1 = k
      · subst hp
        simp only [mapPush, if_pos rfl, alookup]
        rw [if_neg (fun hc => h hc.symm), if_neg (fun hc => h hc.symm)]
      · simp only [mapPush, if_neg hp, alookup]
        by_cases hp' : p.1 = k'
        · rw [if_pos hp', if_pos hp']
        · rw [if_neg hp', if_neg hp']
          exact ih

theorem mapPush_keys (m : List (String × List Transaction)) (k : String)
    (tr : Transaction) :
    (mapPush m k tr).map Prod.fst =
      if k ∈ m.map Prod.fst then m.map Prod.fst else m.map Prod.fst ++ [k] := by
  induction m with
  | nil => simp [mapPush]
  | cons p rest ih =>
      by_cases hp : p.1 = k
      · simp [mapPush, hp]
      · simp only [mapPush, if_neg hp, List.map_cons, List.mem_cons, ih]
        by_cases hk : k ∈ rest.map Prod.fst
        · rw [if_pos hk, if_pos (Or.inr hk)]
        · rw [if_neg hk, if_neg ?_]
          · rfl
          · intro hc
            rcases hc with hc | hc
            · exact hp hc.symm
            · exact hk hc

theorem entryAfter_step (o : Option (List Transaction)) (tr : Transaction)
    (l : List Transaction) :
    entryAfter (some (o.getD [] ++ [tr])) l = entryAfter o ([tr] ++ l) := by
  cases o with
  | some l0 => simp [entryAfter]
  | none => simp [entryAfter]

theorem relevantTrs_cons (k : String) (tr : Transaction) (rest : List Transaction) :
    relevantTrs k (tr :: rest) =
      (if touches k tr then [tr] else []) ++ relevantTrs k rest := by
  show List.filter (touches k) (tr :: rest) = _
  rw [List.filter_cons]
  by_cases ht : touches k tr
  · rw [if_pos ht, if_pos ht]
    rfl
  · rw [if_neg ht]
    simp only [Bool.not_eq_true] at ht
    rw [ht]
    rfl

theorem restoreLoop_map_lookup (trs : List Transaction) :
    ∀ (ts : MemTransactionStorage) (m : List (String × List Transaction))
      (k : String),
      (∀ tr ∈ trs, ∀ tgt v f, tr.action = .Transfer tgt v f →
        tgt ≠ tr.account_name) →
      alookup (restoreLoop ts m trs).2 k = entryAfter (alookup m k)
        (relevantTrs k trs) := by
  induction trs with
  | nil =>
      intro ts m k hns
      show alookup m k = entryAfter (alookup m k) (relevantTrs k [])
      cases alookup m k <;> simp [entryAfter, relevantTrs]
  | cons tr rest ih =>
      intro ts m k hns
      have hns_rest : ∀ tr2 ∈ rest, ∀ tgt v f, tr2.action = .Transfer tgt v f →
          tgt ≠ tr2.account_name :=
        fun tr2 h2 => hns tr2 (List.mem_cons_of_mem _ h2)
      obtain ⟨tid, ta, tn⟩ := tr
      rw [relevantTrs_cons]
      cases ta with
      | Transfer tgt v f =>
          have htgtne : tgt ≠ tn :=
            hns ⟨tid, .Transfer tgt v f, tn⟩ (List.mem_cons_self _ _) tgt v f rfl
          show alookup (restoreLoop _
            (mapPush (mapPush m tgt ⟨tid, .Transfer tgt v f, tn⟩) tn
              ⟨tid, .Transfer tgt v f, tn⟩) rest).2 k = _
          rw [ih _ _ _ hns_rest]
          by_cases hk1 : tn = k
          · subst hk1
            have ht : touches tn (⟨tid, .Transfer tgt v f, tn⟩ : Transaction) =
                true := touches_account_name rfl
            rw [alookup_mapPush_self,
              alookup_mapPush_other _ _ _ (fun hc => htgtne hc.symm),
              entryAfter_step, if_pos ht]
          · by_cases hk2 : tgt = k
            · subst hk2
              have ht : touches tgt (⟨tid, .Transfer tgt v f, tn⟩ : Transaction) =
                  true := touches_target rfl rfl
              rw [alookup_mapPush_other _ _ _ (fun hc => hk1 hc.symm),
                alookup_mapPush_self, entryAfter_step, if_pos ht]
            · rw [alookup_mapPush_other _ _ _ (fun hc => hk1 hc.symm),
                alookup_mapPush_other _ _ _ (fun hc => hk2 hc.symm),
                if_neg ?_]
              · rfl
              · intro hc
                rcases touches_elim hc with h1 | ⟨tgt2, v2, f2, hact2, htg2⟩
                · exact hk1 h1
                · injection hact2 with e1 e2 e3
                  subst e1
                  exact hk2 htg2
      | Registration =>
          show alookup (restoreLoop _
            (mapPush m tn ⟨tid, .Registration, tn⟩) rest).2 k = _
          rw [ih _ _ _ hns_rest]
          by_cases hk1 : tn = k
          · subst hk1
            have ht : touches tn (⟨tid, .Registration, tn⟩ : Transaction) = true :=
              touches_account_name rfl
            rw [alookup_mapPush_self, entryAfter_step, if_pos ht]
          · rw [alookup_mapPush_other _ _ _ (fun hc => hk1 hc.symm), if_neg ?_]
            · rfl
            · intro hc
              rcases touches_elim hc with h1 | ⟨tgt2, v2, f2, hact2, htg2⟩
              · exact hk1 h1
              · cases hact2
      | Add v =>
          show alookup (restoreLoop _
            (mapPush m tn ⟨tid, .Add v, tn⟩) rest).2 k = _
          rw [ih _ _ _ hns_rest]
          by_cases hk1 : tn = k
          · subst hk1
            have ht : touches tn (⟨tid, .Add v, tn⟩ : Transaction) = true :=
              touches_account_name rfl
            rw [alookup_mapPush_self, entryAfter_step, if_pos ht]
          · rw [alookup_mapPush_other _ _ _ (fun hc => hk1 hc.symm), if_neg ?_]
            · rfl
            · intro hc
              rcases touches_elim hc with h1 | ⟨tgt2, v2, f2, hact2, htg2⟩
              · exact hk1 h1
              · cases hact2
      | Withdraw v =>
          show alookup (restoreLoop _
            (mapPush m tn ⟨tid, .Withdraw v, tn⟩) rest).2 k = _
          rw [ih _ _ _ hns_rest]
          by_cases hk1 : tn = k
          · subst hk1
            have ht : touches tn (⟨tid, .Withdraw v, tn⟩ : Transaction) = true :=
              touches_account_name rfl
            rw [alookup_mapPush_self, entryAfter_step, if_pos ht]
          · rw [alookup_mapPush_other _ _ _ (fun hc => hk1 hc.symm), if_neg ?_]
            · rfl
            · intro hc
              rcases touches_elim hc with h1 | ⟨tgt2, v2, f2, hact2, htg2⟩
              · exact hk1 h1
              · cases hact2

theorem restoreLoop_tr (trs : List Transaction) :
    ∀ (ts : MemTransactionStorage) (m : List (String × List Transaction)),
      (∀ i (h : i < trs.length), (trs.get ⟨i, h⟩).id = ts.last_tr_id + i + 1) →
      (restoreLoop ts m trs).1.storage = ts.storage ++ trs ∧
      (restoreLoop ts m trs).1.last_tr_id = ts.last_tr_id + trs.length := by
  induction trs with
  | nil =>
      intro ts m hids
      exact ⟨(List.append_nil _).symm, rfl⟩
  | cons tr rest ih =>
      intro ts m hids
      have h0 : tr.id = ts.last_tr_id + 1 := hids 0 (Nat.succ_pos _)
      have htr_eq : (⟨ts.last_tr_id + 1, tr.action, tr.account_name⟩ :
          Transaction) = tr := by
        cases tr
        simp only at h0 ⊢
        rw [h0]
      have hrest : ∀ i (h : i < rest.length),
          (rest.get ⟨i, h⟩).id =
            (ts.create_transaction tr.account_name tr.action).2.last_tr_id +
              i + 1 := by
        intro i hi
        have h2 := hids (i + 1) (by simpa using Nat.succ_lt_succ hi)
        have hlast : (ts.create_transaction tr.account_name tr.action).2.last_tr_id =
            ts.last_tr_id + 1 := rfl
        rw [hlast]
        simp only [List.get_cons_succ] at h2
        omega
      obtain ⟨ih1, ih2⟩ := ih (ts.create_transaction tr.account_name tr.action).2
        (mapPush (match tr.action with
          | .Transfer tgt _ _ => mapPush m tgt tr
          | _ => m) tr.account_name tr) hrest
      constructor
      · show (restoreLoop _ _ rest).1.storage = _
        rw [ih1, create_transaction_storage, htr_eq, List.append_assoc]
        rfl
      · show (restoreLoop _ _ rest).1.last_tr_id = _
        rw [ih2]
        have hlast : (ts.create_transaction tr.account_name tr.action).2.last_tr_id =
            ts.last_tr_id + 1 := rfl
        rw [hlast]
        simp only [List.length_cons]
        omega

theorem restoreLoop_keys_nodup (trs : List Transaction) :
    ∀ (ts : MemTransactionStorage) (m : List (String × List Transaction)),
      ((m.map Prod.fst).Nodup) →
      (((restoreLoop ts m trs).2.map Prod.fst)).Nodup := by
  induction trs with
  | nil =>
      intro ts m h
      exact h
  | cons tr rest ih =>
      intro ts m h
      have hpush : ∀ (m2 : List (String × List Transaction)) (k : String),
          (m2.map Prod.fst).Nodup → ((mapPush m2 k tr).map Prod.fst).Nodup := by
        intro m2 k h2
        rw [mapPush_keys]
        by_cases hk : k ∈ m2.map Prod.fst
        · rw [if_pos hk]
          exact h2
        · rw [if_neg hk]
          refine List.Nodup.append h2 (List.nodup_singleton _) ?_
          intro x hx hx2
          simp only [List.mem_singleton] at hx2
          rw [hx2] at hx
          exact hk hx
      cases hact : tr.action with
      | Transfer tgt v f =>
          show (((restoreLoop _ (mapPush (match tr.action with
            | .Transfer tgt _ _ => mapPush m tgt tr
            | _ => m) tr.account_name tr) rest).2.map Prod.fst)).Nodup
          rw [hact]
          exact ih _ _ (hpush _ _ (hpush _ _ h))
      | Registration =>
          show (((restoreLoop _ (mapPush (match tr.action with
            | .Transfer tgt _ _ => mapPush m tgt tr
            | _ => m) tr.account_name tr) rest).2.map Prod.fst)).Nodup
          rw [hact]
          exact ih _ _ (hpush _ _ h)
      | Add v =>
          show (((restoreLoop _ (mapPush (match tr.action with
            | .Transfer tgt _ _ => mapPush m tgt tr
            | _ => m) tr.account_name tr) rest).2.map Prod.fst)).Nodup
          rw [hact]
          exact ih _ _ (hpush _ _ h)
      | Withdraw v =>
          show (((restoreLoop _ (mapPush (match tr.action with
            | .Transfer tgt _ _ => mapPush m tgt tr
            | _ => m) tr.account_name tr) rest).2.map Prod.fst)).Nodup
          rw [hact]
          exact ih _ _ (hpush _ _ h)

theorem restoreFold_eq_sum (k : String) (trs : List Transaction) :
    ∀ bal : Int, restoreFold k bal trs = bal + ((trs.map (effect k)).sum) := by
  induction trs with
  | nil =>
      intro bal
      simp [restoreFold]
  | cons tr rest ih =>
      intro bal
      obtain ⟨tid, ta, tn⟩ := tr
      cases ta with
      | Registration =>
          show restoreFold k bal rest = _
          rw [ih bal]
          simp [effect]
      | Add v =>
          show restoreFold k (bal + v) rest = _
          rw [ih]
          simp only [List.map_cons, List.sum_cons, effect]
          ring
      | Withdraw v =>
          show restoreFold k (bal - v) rest = _
          rw [ih]
          simp only [List.map_cons, List.sum_cons, effect]
          ring
      | Transfer tgt v f =>
          by_cases htgt : tgt = k
          · have : restoreFold k bal (⟨tid, .Transfer tgt v f, tn⟩ :: rest) =
                restoreFold k (bal + v) rest := by
              show (if tgt ≠ k then _ else restoreFold k (bal + v) rest) = _
              rw [if_neg (fun hc => hc htgt)]
            rw [this, ih]
            simp only [List.map_cons, List.sum_cons, effect_transfer_pos htgt]
            ring
          · have : restoreFold k bal (⟨tid, .Transfer tgt v f, tn⟩ :: rest) =
                restoreFold k (bal - ((v : Int) + (f : Int))) rest := by
              show (if tgt ≠ k then restoreFold k (bal - ((v : Int) + f)) rest
                else _) = _
              rw [if_pos htgt]
            rw [this, ih]
            simp only [List.map_cons, List.sum_cons, effect_transfer_neg htgt]
            ring

theorem alookup_map_entry {β γ : Type} (g : String → β → γ)
    (m : List (String × β)) (k : String) :
    alookup (m.map fun q => (q.1, g q.1 q.2)) k = (alookup m k).map (g k) := by
  induction m with
  | nil => rfl
  | cons p rest ih =>
      simp only [List.map_cons, alookup]
      by_cases hp : p.1 = k
      · subst hp
        rw [if_pos rfl, if_pos rfl]
        rfl
      · rw [if_neg hp, if_neg hp]
        exact ih

theorem restoreAccountsLoop_spec (m : List (String × List Transaction)) :
    ∀ b : Bank, ((m.map Prod.fst).Nodup) →
      (∀ k ∈ m.map Prod.fst, alookup b.acc_storage.storage k = none) →
      ∃ b', b.restoreAccountsLoop m = .ok b' ∧
        b'.acc_storage.storage = b.acc_storage.storage ++ m.map (fun q =>
          (q.1, { name := q.1, balance := restoreFold q.1 0 q.2,
                  trs := q.2.map (·.id) })) ∧
        b'.acc_storage.fee_acc_name = b.acc_storage.fee_acc_name ∧
        b'.tr_storage = b.tr_storage ∧ b'.tr_fee = b.tr_fee := by
  induction m with
  | nil =>
      intro b hnd habs
      exact ⟨b, rfl, (List.append_nil _).symm, rfl, rfl, rfl⟩
  | cons q rest ih =>
      intro b hnd habs
      obtain ⟨k, trsk⟩ := q
      simp only [List.map_cons, List.nodup_cons] at hnd
      have hk_abs : alookup b.acc_storage.storage k = none :=
        habs k (List.mem_cons_self _ _)
      have hstep : b.restore_account_from_transactions k trsk =
          (.ok { name := k, balance := restoreFold k 0 trsk,
                 trs := trsk.map (·.id) },
           { b with acc_storage :=
               { b.acc_storage with storage := b.acc_storage.storage ++
                   [(k, { name := k, balance := restoreFold k 0 trsk,
                          trs := trsk.map (·.id) })] } }) := by
        unfold Bank.restore_account_from_transactions
        simp only [MemAccountStorage.update_account,
          MemAccountStorage.create_account, hk_abs]
      have hloop : b.restoreAccountsLoop ((k, trsk) :: rest) =
          ({ b with acc_storage :=
               { b.acc_storage with storage := b.acc_storage.storage ++
                   [(k, { name := k, balance := restoreFold k 0 trsk,
                          trs := trsk.map (·.id) })] } } :
            Bank).restoreAccountsLoop rest := by
        show (match b.restore_account_from_transactions k trsk with
          | (.error e, _) => Except.error e
          | (.ok _, b1) => b1.restoreAccountsLoop rest) = _
        rw [hstep]
      have habs2 : ∀ k2 ∈ rest.map Prod.fst,
          alookup (b.acc_storage.storage ++
            [(k, { name := k, balance := restoreFold k 0 trsk,
                   trs := trsk.map (·.id) })]) k2 = none := by
        intro k2 hk2
        have hk2ne : k2 ≠ k := by
          intro hc
          rw [hc] at hk2
          exact hnd.1 hk2
        rw [alookup_append_none _ (habs k2 (List.mem_cons_of_mem _ hk2))]
        show (if k = k2 then _ else (none : Option AccountTransfer)) = none
        rw [if_neg (fun hc => hk2ne hc.symm)]
      obtain ⟨b', hb', hstor, hfee, hts, htf⟩ := ih
        { b with acc_storage :=
            { b.acc_storage with storage := b.acc_storage.storage ++
                [(k, { name := k, balance := restoreFold k 0 trsk,
                       trs := trsk.map (·.id) })] } }
        hnd.2 habs2
      refine ⟨b', ?_, ?_, hfee, hts, htf⟩
      · rw [hloop]
        exact hb'
      · rw [hstor]
        dsimp only
        rw [List.append_assoc]
        rfl

theorem ids_pointwise_aux (log : List Transaction) :
    ∀ s : Nat, log.map (·.id) = List.range' (s + 1) log.length →
      ∀ i (hi : i < log.length), (log.get ⟨i, hi⟩).id = s + i + 1 := by
  induction log with
  | nil =>
      intro s h i hi
      cases hi
  | cons tr rest ih =>
      intro s h i hi
      rw [List.length_cons, List.range'_succ] at h
      simp only [List.map_cons] at h
      injection h with h1 h2
      cases i with
      | zero =>
          show tr.id = s + 0 + 1
          rw [h1]
      | succ j =>
          have hj : j < rest.length := Nat.lt_of_succ_lt_succ hi
          have := ih (s + 1) h2 j hj
          show (rest.get ⟨j, hj⟩).id = s + (j + 1) + 1
          omega

theorem trajNonneg_take {bal : Int} {l : List Int} (h : TrajNonneg bal l)
    (h0 : 0 ≤ bal) : ∀ i, 0 ≤ bal + (l.take i).sum := by
  induction l generalizing bal with
  | nil =>
      intro i
      simpa using h0
  | cons e rest ih =>
      intro i
      cases i with
      | zero => simpa using h0
      | succ j =>
          obtain ⟨h1, h2⟩ := h
          have := ih h2 h1 j
          rw [List.take_succ_cons, List.sum_cons]
          linarith

/-- Shared description of `restore_bank_from_transactions` on a log whose ids
are `1..n`: the replay succeeds, reproduces the log exactly (same ids), and its
account table is the grouped restore map folded per account. -/
theorem restore_bank_spec {b : Bank} (hids : LogIds b.tr_storage)
    (fee : Option Nat) :
    ∃ rb, Bank.restore_bank_from_transactions b.transactions fee = .ok rb ∧
      rb.tr_storage.storage = b.tr_storage.storage ∧
      rb.acc_storage.storage =
        (restoreLoop MemTransactionStorage.new [] b.transactions).2.map
          (fun q => (q.1, { name := q.1, balance := restoreFold q.1 0 q.2,
                            trs := q.2.map (·.id) })) := by
  obtain ⟨h1, h2⟩ := hids
  have hpt : ∀ i (hi : i < b.transactions.length),
      (b.transactions.get ⟨i, hi⟩).id =
        MemTransactionStorage.new.last_tr_id + i + 1 := by
    intro i hi
    have := ids_pointwise_aux b.transactions 0 (by simpa using h1) i hi
    show (b.transactions.get ⟨i, hi⟩).id = 0 + i + 1
    omega
  obtain ⟨hst, hlast⟩ := restoreLoop_tr b.transactions MemTransactionStorage.new
    [] hpt
  have hknd := restoreLoop_keys_nodup b.transactions MemTransactionStorage.new []
    List.nodup_nil
  obtain ⟨b', hb', hstor, hfee, hts, htf⟩ := restoreAccountsLoop_spec
    (restoreLoop MemTransactionStorage.new [] b.transactions).2
    { acc_storage := MemAccountStorage.rustDefault,
      tr_storage := (restoreLoop MemTransactionStorage.new []
        b.transactions).1,
      tr_fee := fee.getD 0 } hknd (fun k _ => rfl)
  refine ⟨b', ?_, ?_, ?_⟩
  · exact hb'
  · rw [hts, hst]
    rfl
  · rw [hstor]
    rfl

/-- C5: on every reachable ledger the stored transaction ids are exactly
`1, 2, …, n` in order (so each id is assigned once, in strictly increasing
order, with no gaps) and the id counter equals the count; and replaying the
full transaction sequence reproduces the log, ids included. -/
theorem c5_transaction_ids :
    (∀ b : Bank, Reachable b →
      b.tr_storage.storage.map (·.id) =
        List.range' 1 b.tr_storage.storage.length ∧
      b.tr_storage.last_tr_id = b.tr_storage.storage.length) ∧
    (∀ b : Bank, Reachable b → ∃ rb,
      Bank.restore_bank_from_transactions b.transactions (some b.tr_fee) =
        .ok rb ∧ rb.tr_storage.storage = b.tr_storage.storage) := by
  constructor
  · rintro b ⟨fee, ops, rfl⟩
    exact runOps_logIds ops (freshBank fee) ⟨rfl, rfl⟩
  · rintro b ⟨fee, ops, rfl⟩
    obtain ⟨rb, hok, hlog, _⟩ :=
      restore_bank_spec (runOps_logIds ops (freshBank fee) ⟨rfl, rfl⟩)
        (some (runOps (freshBank fee) ops).tr_fee)
    exact ⟨rb, hok, hlog⟩

/-- Witness: the id discipline and replay id preservation on the scenario
ledger. -/
theorem c5_transaction_ids_witness :
    (scenarioBank.tr_storage.storage.map (·.id) =
      List.range' 1 scenarioBank.tr_storage.storage.length ∧
    scenarioBank.tr_storage.last_tr_id =
      scenarioBank.tr_storage.storage.length) ∧
    (∃ rb, Bank.restore_bank_from_transactions scenarioBank.transactions
      (some scenarioBank.tr_fee) = .ok rb ∧
      rb.tr_storage.storage = scenarioBank.tr_storage.storage) := by
  have hreach : Reachable scenarioBank :=
    ⟨some 1, [.create "A", .create "B", .inc "A" 100, .transfer "A" "B" 10],
      by decide⟩
  obtain ⟨h1, h2⟩ := c5_transaction_ids
  exact ⟨h1 scenarioBank hreach, h2 scenarioBank hreach⟩

/-- C8: in every reachable ledger state—failed operations included—every stored
account balance is non-negative; and on every cleanly reachable ledger every
partial replay fold of any account's transaction list stays non-negative. -/
theorem c8_balances_nonnegative :
    (∀ b : Bank, Reachable b → ∀ p ∈ b.acc_storage.storage, 0 ≤ p.2.balance) ∧
    (∀ b : Bank, CleanReach b → ∀ name i,
      0 ≤ restoreFold name 0 ((relevantTrs name b.transactions).take i)) := by
  constructor
  · rintro b ⟨fee, ops, rfl⟩
    refine runOps_nonneg ops (freshBank fee) ?_
    intro p hp
    simp only [freshBank, Bank.new, MemAccountStorage.new,
      List.mem_singleton] at hp
    rw [hp]
  · intro b hcr name i
    have htraj := (cleanReach_inv hcr).traj name
    rw [restoreFold_eq_sum, List.map_take]
    have := trajNonneg_take htraj (le_refl 0) i
    simpa using this

/-- C2 (amended): a cleanly reachable ledger replays faithfully: the rebuild
succeeds and every account with at least one transaction reappears with the
same balance and the same transaction-id list. -/
theorem c2_replay_equivalence (b : Bank) (h : CleanReach b) :
    ∃ rb, Bank.restore_bank_from_transactions b.transactions
        (some b.tr_fee) = .ok rb ∧
      ∀ k acc, alookup b.acc_storage.storage k = some acc → acc.trs ≠ [] →
        ∃ acc', alookup rb.acc_storage.storage k = some acc' ∧
          acc'.balance = acc.balance ∧ acc'.trs = acc.trs := by
  have hinv := cleanReach_inv h
  obtain ⟨rb, hok, hlog, hstor⟩ := restore_bank_spec hinv.logIds (some b.tr_fee)
  refine ⟨rb, hok, ?_⟩
  intro k acc hacc htrs
  have hacctrs : acc.trs = (relevantTrs k b.transactions).map (·.id) :=
    hinv.acctTrs _ (alookup_mem hacc)
  have hrel_ne : relevantTrs k b.transactions ≠ [] := by
    intro hc
    apply htrs
    rw [hacctrs, hc]
    exact List.map_nil
  have hns : ∀ tr ∈ b.transactions, ∀ tgt v f,
      tr.action = .Transfer tgt v f → tgt ≠ tr.account_name :=
    fun tr htr => hinv.noSelf tr htr
  have hmap : alookup
      (restoreLoop MemTransactionStorage.new [] b.transactions).2 k =
      some (relevantTrs k b.transactions) := by
    rw [restoreLoop_map_lookup _ _ _ _ hns]
    show entryAfter none _ = _
    unfold entryAfter
    rw [if_neg hrel_ne]
  have hentry := alookup_map_entry
    (fun k2 l => ({ name := k2, balance := restoreFold k2 0 l,
                    trs := l.map (·.id) } : AccountTransfer))
    (restoreLoop MemTransactionStorage.new [] b.transactions).2 k
  refine ⟨{ name := k, balance := restoreFold k 0 (relevantTrs k b.transactions),
            trs := (relevantTrs k b.transactions).map (·.id) }, ?_, ?_, ?_⟩
  · rw [hstor, hentry, hmap]
    rfl
  · show restoreFold k 0 (relevantTrs k b.transactions) = acc.balance
    rw [restoreFold_eq_sum, hinv.acctBal _ (alookup_mem hacc)]
    show (0 : Int) + (effectsOf k b.transactions).sum = _
    rw [zero_add]
    rfl
  · exact hacctrs.symm

/-- Witness: the replay equivalence applied to the concrete scenario ledger. -/
theorem c2_replay_equivalence_witness :
    ∃ rb, Bank.restore_bank_from_transactions scenarioBank.transactions
        (some scenarioBank.tr_fee) = .ok rb ∧
      ∀ k acc, alookup scenarioBank.acc_storage.storage k = some acc →
        acc.trs ≠ [] →
        ∃ acc', alookup rb.acc_storage.storage k = some acc' ∧
          acc'.balance = acc.balance ∧ acc'.trs = acc.trs := by
  have h0 : CleanReach (freshBank (some 1)) := .fresh _
  have h1 : CleanReach c7s1.2 := .create "A" h0 (by decide)
  have h2 : CleanReach c7s2.2 := .create "B" h1 (by decide)
  have h3 : CleanReach c7s3.2 := .inc "A" 100 h2 (by decide)
  have h4 : CleanReach scenarioBank :=
    .transfer "A" "B" 10 h3 (by decide) (by decide)
  exact c2_replay_equivalence scenarioBank h4

/-- Witness: non-negativity on the scenario ledger (a reachable state) and on
its replay folds. -/
theorem c8_balances_nonnegative_witness :
    (∀ p ∈ scenarioBank.acc_storage.storage, 0 ≤ p.2.balance) ∧
    (∀ name i,
      0 ≤ restoreFold name 0
        ((relevantTrs name scenarioBank.transactions).take i)) := by
  have hreach : Reachable scenarioBank :=
    ⟨some 1, [.create "A", .create "B", .inc "A" 100, .transfer "A" "B" 10],
      by decide⟩
  have h0 : CleanReach (freshBank (some 1)) := .fresh _
  have h1 : CleanReach c7s1.2 := .create "A" h0 (by decide)
  have h2 : CleanReach c7s2.2 := .create "B" h1 (by decide)
  have h3 : CleanReach c7s3.2 := .inc "A" 100 h2 (by decide)
  have h4 : CleanReach scenarioBank :=
    .transfer "A" "B" 10 h3 (by decide) (by decide)
  exact ⟨c8_balances_nonnegative.1 scenarioBank hreach,
    c8_balances_nonnegative.2 scenarioBank h4⟩

end RustBank
